import Mathlib

/-!
Shallow embedding of the NP-hard puzzle-game generator/solver/checker library
(`src/my-app/src/components/*.jsx`, `src/src/components/*.jsx`,
`src/my-app/src/components/GraphUtils.js`) and proofs of the specification
claims about it.

Conventions:
* JS numbers used as indices/sizes/weights are embedded as `Nat` (all the
  relevant arithmetic stays within small non-negative integers); signed
  derived quantities (the partition generator's `sumX - sumY`) become `Int`.
* JS arrays become `List`; `arr[i]` reads are `List.getD i 0` (the games only
  index in range, so the default is never observable in the modelled runs).
* JS `Set` iteration order is insertion order; adjacency "sets" are embedded
  as duplicate-free lists built by append-if-absent.
* `Math.random()`-driven choices are lambda-lifted into explicit parameters
  (coin functions, candidate lists, attempt lists), so every generator is a
  pure function of its random choices; retry loops take the list of attempts
  as input and rejection loops that may spin forever return `Option`.
* Floating-point geometry (`Math.hypot`, `Math.round`) is abstracted into a
  distance oracle `d : Nat → Nat → Nat` constrained only by the properties
  the rounded Euclidean distance actually has (`d x x = 0`, symmetry).
-/

namespace NPHard

/-- An undirected edge `{u, v}` as stored by the games (`{u: …, v: …}`). -/
structure Edge where
  u : Nat
  v : Nat
deriving DecidableEq, Repr

/-! ## Vertex cover: `findMinVertexCover` (GraphUtils.js / VertexCoverGame.jsx) -/

/-- The `sel` list built from a bitmask:
`for (let i = 0; i < n; i++) if (mask & (1 << i)) sel.push(i)`. -/
def selOfMask (n mask : Nat) : List Nat :=
  (List.range n).filter (fun i => mask.testBit i)

/-- `edges.every(({u, v}) => sel.includes(u) || sel.includes(v))`. -/
def coversB (edges : List Edge) (sel : List Nat) : Bool :=
  edges.all (fun e => sel.contains e.u || sel.contains e.v)

/-- One iteration of the `findMinVertexCover` mask loop:
skip if `best !== null && sel.length >= best`, otherwise record the size
when the subset covers every edge. -/
def vcStep (n : Nat) (edges : List Edge) (best : Option Nat) (mask : Nat) :
    Option Nat :=
  let sel := selOfMask n mask
  match best with
  | some b =>
    if b ≤ sel.length then some b
    else if coversB edges sel then some sel.length else some b
  | none => if coversB edges sel then some sel.length else none

/-- `findMinVertexCover(n, edges)` from GraphUtils.js / VertexCoverGame.jsx:
brute-force minimum vertex-cover size over all `2^n` bitmask subsets,
with the size-pruning `continue`. Returns `none` for JS `null`. -/
def findMinVertexCover (n : Nat) (edges : List Edge) : Option Nat :=
  (List.range (2 ^ n)).foldl (vcStep n edges) none

/-- Spec-side covering predicate for an arbitrary finite node subset `S`:
every edge has at least one endpoint in `S`. -/
def CoversSpec (edges : List Edge) (S : Finset Nat) : Prop :=
  ∀ e ∈ edges, e.u ∈ S ∨ e.v ∈ S

instance (edges : List Edge) (S : Finset Nat) : Decidable (CoversSpec edges S) := by
  unfold CoversSpec; infer_instance

/-- Binary encoding of the indicator of a set restricted to `{0..k-1}`:
the mask whose bit `i` (for `i < k`) is `decide (i ∈ S)`. -/
def maskOfSet (S : Finset Nat) : Nat → Nat
  | 0 => 0
  | k + 1 => (if k ∈ S then 2 ^ k else 0) + maskOfSet S k

/-! ## Vertex-cover game: generator and click handler (VertexCoverGame.jsx) -/

/-- A generated graph instance `{nodes, edges, k}`; nodes are kept as the
list of their ids (the JS objects `{id: i}` carry nothing else here). -/
structure VCInst where
  nodeIds : List Nat
  edges : List Edge
  k : Nat
deriving Repr

/-- The random double loop
`for i < nodeCount, for j in i+1..nodeCount-1: if coin then push {u:i, v:j}`,
with the coin flips supplied explicitly. -/
def randEdges (coin : Nat → Nat → Bool) (n : Nat) : List Edge :=
  (List.range n).foldl
    (fun acc i =>
      acc ++ ((List.range n).filter (fun j => i < j && coin i j)).map
        (fun j => ⟨i, j⟩))
    []

/-- `if (edges.length === 0) edges.push({u: 0, v: 1})`. -/
def ensureEdge (edges : List Edge) : List Edge :=
  if edges.isEmpty then [⟨0, 1⟩] else edges

/-- One attempt of the vertex-cover `generateGraph` loop: its sampled node
count together with the coin function for the edge double loop. -/
structure VCAttempt where
  n : Nat
  coin : Nat → Nat → Bool

/-- The candidate edges an attempt produces (random edges, plus the forced
single edge if none came up). -/
def VCAttempt.candidateEdges (a : VCAttempt) : List Edge :=
  ensureEdge (randEdges a.coin a.n)

/-- `generateGraph()` of VertexCoverGame.jsx, lambda-lifted over the list of
attempts (`maxAttempts = 10` in the source): return the first attempt whose
`findMinVertexCover` result is non-null, else the hardcoded two-node
fallback `{nodes: [0,1], edges: [{u:0,v:1}], k: 1}`. -/
def generateGraphVC : List VCAttempt → VCInst
  | [] => ⟨[0, 1], [⟨0, 1⟩], 1⟩
  | a :: rest =>
    match findMinVertexCover a.n a.candidateEdges with
    | some k => ⟨List.range a.n, a.candidateEdges, k⟩
    | none => generateGraphVC rest

/-- `handleNodeClick` of VertexCoverGame.jsx (identical logic in
CliqueGame's `handleNodeClick`): toggle off a selected node; add an
unselected node only while `selected.size < graph.k`; otherwise flash an
error and leave the selection unchanged. -/
def handleNodeClick (k : Nat) (selected : Finset Nat) (id : Nat) : Finset Nat :=
  if id ∈ selected then selected.erase id
  else if selected.card < k then insert id selected
  else selected

/-- `handleNodeClick` of the clique game (textually the same state update,
against the clique instance's `graph.k`). -/
def cliqueHandleNodeClick (k : Nat) (selected : Finset Nat) (id : Nat) :
    Finset Nat :=
  if id ∈ selected then selected.erase id
  else if selected.card < k then insert id selected
  else selected

/-- The vertex-cover win predicate of the `useEffect` check:
`edges.every(covered) && selected.size === k`. -/
def vcWin (edges : List Edge) (k : Nat) (selected : Finset Nat) : Bool :=
  edges.all (fun e => e.u ∈ selected || e.v ∈ selected) &&
    selected.card == k

/-! ## Independent set (IndependentSetGame.jsx) -/

/-- `getMaxIndependentSetNodes(n, edges)`: brute force over bitmask subsets,
keeping the largest subset with no edge inside (`sel.size <= best.size`
skip). Sets are embedded as the `selOfMask` lists (distinct, increasing). -/
def getMaxIndependentSetNodes (n : Nat) (edges : List Edge) : List Nat :=
  (List.range (2 ^ n)).foldl
    (fun best mask =>
      let sel := selOfMask n mask
      if sel.length ≤ best.length then best
      else if edges.all (fun e => !(sel.contains e.u && sel.contains e.v)) then
        sel
      else best)
    []

/-- The independent-set win predicate of the `useEffect` check:
`selected.size === k && edges.every(({u,v}) => !(selected.has(u) && selected.has(v)))`. -/
def isWin (edges : List Edge) (k : Nat) (selected : Finset Nat) : Bool :=
  selected.card == k &&
    edges.all (fun e => !(e.u ∈ selected && e.v ∈ selected))

/-- `generateGraph()` of IndependentSetGame.jsx over an explicit attempt
list: accept the first attempt whose maximum independent set is non-empty
(`sel.size > 0`), recording `k = sel.size`; fallback `{[0,1],[{0,1}],k:1}`. -/
def generateGraphIS : List VCAttempt → VCInst
  | [] => ⟨[0, 1], [⟨0, 1⟩], 1⟩
  | a :: rest =>
    let sel := getMaxIndependentSetNodes a.n a.candidateEdges
    if 0 < sel.length then ⟨List.range a.n, a.candidateEdges, sel.length⟩
    else generateGraphIS rest

/-! ## 3-SAT (ThreeSatGame.jsx) -/

/-- One literal `{var: v, neg: b}`. -/
structure Literal where
  lvar : Nat
  neg : Bool
deriving DecidableEq, Repr

/-- A clause is the three-literal list `lit`. -/
abbrev Clause := List Literal

/-- Literal satisfaction in the game's win check:
`selected[v] === !neg`. -/
def litSat (assignment : List Bool) (l : Literal) : Bool :=
  assignment.getD l.lvar false == !l.neg

/-- `clauses.every(clause => clause.some(lit satisfied))`. -/
def formulaSat (assignment : List Bool) (clauses : List Clause) : Bool :=
  clauses.all (fun c => c.any (litSat assignment))

/-- Building one clause from its randomly drawn distinct variables `vars`,
polarities `negs` and repair index `fixIdx`: if no literal matches the
hidden assignment, flip literal `fixIdx` to `!assignment[v]`
(`lit[idx].neg = !assignment[v]`). -/
def mkClause (assignment : List Bool) (vars : List Nat) (negs : List Bool)
    (fixIdx : Nat) : Clause :=
  let lit := vars.zipWith (fun v g => Literal.mk v g) negs
  if lit.any (fun l => !(assignment.getD l.lvar false == l.neg)) then lit
  else
    lit.set fixIdx
      ⟨(lit.getD fixIdx ⟨0, false⟩).lvar,
        !(assignment.getD (lit.getD fixIdx ⟨0, false⟩).lvar false)⟩

/-- The random data of one iteration of the `do … while` body of
`generateFormula`: the hidden assignment and, for each of the `numClauses`
clauses, its variables / polarities / repair index. -/
structure SatTry where
  assignment : List Bool
  clauseData : Nat → List Nat × List Bool × Nat

/-- The clause list one loop body builds: the inner
`while (clauses.length < numClauses && clauses.length < maxAttempts)` pushes
exactly one clause per iteration, and `maxAttempts = numClauses * 2`
exceeds `numClauses` whenever `numClauses ≥ 1`, so the loop produces
exactly `numClauses` clauses. -/
def tryClauses (numClauses : Nat) (t : SatTry) : List Clause :=
  (List.range numClauses).map fun i =>
    mkClause t.assignment (t.clauseData i).1 (t.clauseData i).2.1
      (t.clauseData i).2.2

/-- The rejection test of the `do … while`: loop again while
`clauses.length === numClauses && clauses.every(clause => clause.some(({neg}) => neg))`. -/
def satReject (numClauses : Nat) (clauses : List Clause) : Bool :=
  clauses.length == numClauses && clauses.all (fun c => c.any (·.neg))

/-- A generated formula `{clauses, assignment, numVars}`. -/
structure Formula where
  clauses : List Clause
  assignment : List Bool
  numVars : Nat

/-- `generateFormula(numVars, numClauses)` lambda-lifted over the stream of
rejection-loop iterations; `none` models the loop not having accepted any
of the supplied iterations yet. -/
def generateFormula (numVars numClauses : Nat) : List SatTry → Option Formula
  | [] => none
  | t :: rest =>
    let clauses := tryClauses numClauses t
    if satReject numClauses clauses then generateFormula numVars numClauses rest
    else some ⟨clauses, t.assignment, numVars⟩

/-! ## Subset sum (src/src/components/SubsetSumGame.jsx, `mask` variant) -/

/-- A subset-sum problem `{values, target, mask}`. -/
structure SubsetSumPb where
  values : List Nat
  target : Nat
  mask : List Bool
deriving Repr

/-- `values.reduce((sum, v, i) => sum + (mask[i] ? v : 0), 0)`. -/
def maskedSum (values : List Nat) (mask : List Bool) : Nat :=
  (values.zip mask).foldl (fun s p => s + if p.2 then p.1 else 0) 0

/-- `generateProblem` after its rejection loop: `values` are the sampled
magnitudes, `mask` is the first sampled mask with at least one `true`
(`while (count === 0)` re-rolls), and the target is the masked sum. -/
def generateProblem (values : List Nat) (mask : List Bool) : SubsetSumPb :=
  ⟨values, maskedSum values mask, mask⟩

/-! ## Partition (src/src/components/PartitionGame.jsx) -/

/-- `values[maskIndices[i]] = xs[i]; values[compIndices[i]] = ys[i]`:
interleave the group values back into positional order along the mask.
(The JS builds the same array by writing `xs` in order at the `true`
positions and `ys` in order at the `false` positions.) -/
def assembleValues : List Bool → List Int → List Int → List Int
  | [], _, _ => []
  | true :: ms, x :: xs, ys => x :: assembleValues ms xs ys
  | true :: _, [], _ => []
  | false :: ms, xs, y :: ys => y :: assembleValues ms xs ys
  | false :: _, _, [] => []

/-- The derived complement-side values: for a single `false` slot, `[sumX]`;
otherwise the `c - 1` sampled values plus the balancing last value
`sumX - sumY`. -/
def partitionYs (sumX : Int) (ys0 : List Int) (c : Nat) : List Int :=
  if c = 1 then [sumX] else ys0 ++ [sumX - ys0.sum]

/-- One accepted iteration of `generatePartitionProblem`'s `while (true)`
loop: from the non-trivial `mask`, the sampled true-side values `xs` and
the sampled first `c-1` false-side values `ys0`, assemble the full value
array (the loop's `continue` guards are hypotheses of the theorems). -/
def generatePartitionProblem (mask : List Bool) (xs ys0 : List Int) :
    List Int :=
  assembleValues mask xs (partitionYs xs.sum ys0 (mask.count false))

/-- `values.reduce((sum, v, i) => sum + (moved[i] ? v : 0), 0)` — the
`bottomSum` of the partition game, i.e. the sum over mask-true positions. -/
def maskedSumZ (values : List Int) (mask : List Bool) : Int :=
  (values.zip mask).foldl (fun s p => s + if p.2 then p.1 else 0) 0

/-- `values.reduce((sum, v, i) => sum + (moved[i] ? 0 : v), 0)` — the
`topSum` of the partition game, i.e. the sum over mask-false positions. -/
def unmaskedSumZ (values : List Int) (mask : List Bool) : Int :=
  (values.zip mask).foldl (fun s p => s + if p.2 then 0 else p.1) 0

/-! ## 3-coloring (ThreeColorGame.jsx) -/

/-- `adj[i].push(x)` on a `List (List Nat)` adjacency array. -/
def pushAt (adj : List (List Nat)) (i x : Nat) : List (List Nat) :=
  adj.set i (adj.getD i [] ++ [x])

/-- The coloring solver's adjacency lists:
`edges.forEach(({u,v}) => { adj[u].push(v); adj[v].push(u); })`. -/
def buildAdjList (n : Nat) (edges : List Edge) : List (List Nat) :=
  edges.foldl (fun adj e => pushAt (pushAt adj e.u e.v) e.v e.u)
    (List.replicate n [])

/-- `dfs(node)` of `find3Coloring`, with the mutable `colors` array threaded
explicitly (the source keeps one shared array and never resets entries on
backtracking, so failed branches leave stale colors behind — the threading
reproduces that exactly). Recursion is by `fuel = n - node` (`fuel = 0` is
the `node === n` base case); the `for (let c = 0; …)` loop, which returns
on the first successful recursive call and otherwise falls through, is the
fold with an already-found accumulator. The candidate check
`adj[node].every(nei => colors[nei] !== c)` also reads stale colors of
not-yet-assigned neighbors, exactly as the source does. -/
def colorDfs (adj : List (List Nat)) (maxColors : Nat) :
    Nat → Nat → List Nat → Bool × List Nat
  | 0, _, colors => (true, colors)
  | fuel + 1, node, colors =>
    (List.range maxColors).foldl
      (fun r c =>
        if r.1 then r
        else if (adj.getD node []).all (fun nei => r.2.getD nei 0 != c) then
          colorDfs adj maxColors fuel (node + 1) (r.2.set node c)
        else r)
      (false, colors)

/-- `find3Coloring(n, edges, maxColors)`: run `dfs(0)` (fuel `n`) on the
all-zero array, return the final array on success, `null` on failure. -/
def find3Coloring (n : Nat) (edges : List Edge) (maxColors : Nat) :
    Option (List Nat) :=
  let r := colorDfs (buildAdjList n edges) maxColors n 0 (List.replicate n 0)
  if r.1 then some r.2 else none

/-- A proper coloring: no edge has both endpoints sharing a color. -/
def ProperColoring (edges : List Edge) (colors : List Nat) : Prop :=
  ∀ e ∈ edges, colors.getD e.u 0 ≠ colors.getD e.v 0

instance (edges : List Edge) (colors : List Nat) :
    Decidable (ProperColoring edges colors) := by
  unfold ProperColoring; infer_instance

/-! ## Hamiltonian cycle (HamCycleGame.jsx) -/

/-- `adj[i].add(x)` on insertion-ordered set adjacency (append if absent). -/
def addOnce (adj : List (List Nat)) (i x : Nat) : List (List Nat) :=
  let l := adj.getD i []
  if l.contains x then adj else adj.set i (l ++ [x])

/-- `findHamiltonianCycle`'s adjacency sets:
`edges.forEach(({u,v}) => { adj[u].add(v); adj[v].add(u); })`. -/
def buildAdjSet (n : Nat) (edges : List Edge) : List (List Nat) :=
  edges.foldl (fun adj e => addOnce (addOnce adj e.u e.v) e.v e.u)
    (List.replicate n [])

/-- `dfs(u, depth)` of `findHamiltonianCycle` with `fuel = n - depth`
(so `fuel = 0` is the source's `depth === n` base case) and the shared
`path`/`used` arrays threaded explicitly: push `u` / mark it used on
entry; at the base, succeed iff the cycle closes (`adj[u].has(path[0])`),
else pop/unmark and fail; otherwise run the `for (let v of adj[u])` loop —
skip used neighbors, recurse into unused ones, stop at the first success
(the already-found accumulator) — and, if no neighbor succeeded,
pop/unmark `u` before failing. -/
def dfsHC (adj : List (List Nat)) :
    Nat → Nat → List Nat → List Bool → Bool × List Nat × List Bool
  | 0, u, path, used =>
    let p1 := path ++ [u]
    let us1 := used.set u true
    if (adj.getD u []).contains (p1.getD 0 0) then (true, p1, us1)
    else (false, p1.dropLast, us1.set u false)
  | fuel + 1, u, path, used =>
    let p1 := path ++ [u]
    let us1 := used.set u true
    let r :=
      (adj.getD u []).foldl
        (fun r v =>
          if r.1 then r
          else if r.2.2.getD v false then r
          else dfsHC adj fuel v r.2.1 r.2.2)
        (false, p1, us1)
    if r.1 then r else (false, r.2.1.dropLast, r.2.2.set u false)

/-- The `for (let start = 0; …)` loop: try each start with `dfs(start, 1)`
(i.e. `fuel = n - 1`), threading the shared arrays between attempts. -/
def hcStarts (adj : List (List Nat)) (n : Nat) :
    List Nat → List Nat → List Bool → Option (List Nat)
  | [], _, _ => none
  | s :: rest, p, us =>
    let r := dfsHC adj (n - 1) s p us
    if r.1 then some r.2.1 else hcStarts adj n rest r.2.1 r.2.2

/-- `findHamiltonianCycle(n, edges)`: `null` becomes `none`. -/
def findHamiltonianCycle (n : Nat) (edges : List Edge) : Option (List Nat) :=
  hcStarts (buildAdjSet n edges) n (List.range n) [] (List.replicate n false)

/-- Adjacency in the raw edge list (either orientation). -/
def isAdj (edges : List Edge) (a b : Nat) : Bool :=
  edges.any fun e => (e.u == a && e.v == b) || (e.u == b && e.v == a)

/-- A valid Hamiltonian cycle: an ordering of all `n` node ids, each
visited exactly once, consecutive nodes adjacent, and the last adjacent to
the first. -/
def IsHamCycle (n : Nat) (edges : List Edge) (c : List Nat) : Prop :=
  List.Perm c (List.range n) ∧
    List.Chain' (fun a b => isAdj edges a b = true) c ∧
    isAdj edges (c.getLast?.getD 0) (c.headD 0) = true

instance (n : Nat) (edges : List Edge) (c : List Nat) :
    Decidable (IsHamCycle n edges c) := by
  unfold IsHamCycle; infer_instance

/-! ## Hamiltonian-cycle game: generator and win check (HamCycleGame.jsx) -/

/-- The edges of the random starting cycle:
`{u: cycle[i], v: cycle[(i+1) % nodeCount]}` for each `i`. -/
def cycleEdges (cycle : List Nat) : List Edge :=
  (List.range cycle.length).map fun i =>
    ⟨cycle.getD i 0, cycle.getD ((i + 1) % cycle.length) 0⟩

/-- The extra random-edge double loop of `generateHamiltonianGraph`,
appending `{u:i, v:j}` when the coin fires and no duplicate (in either
orientation) is present yet. -/
def extraEdges (coin : Nat → Nat → Bool) (n : Nat) (start : List Edge) :
    List Edge :=
  (List.range n).foldl
    (fun acc i =>
      (List.range n).foldl
        (fun acc2 j =>
          if i < j && coin i j &&
              !(acc2.any fun e =>
                (e.u == i && e.v == j) || (e.u == j && e.v == i)) then
            acc2 ++ [⟨i, j⟩]
          else acc2)
        acc)
    start

/-- One attempt of `generateHamiltonianGraph`: node count, the shuffled id
cycle (`nodes.map(n => n.id).sort(random)` — some permutation of the ids)
and the extra-edge coins. -/
structure HCAttempt where
  n : Nat
  cycle : List Nat
  coin : Nat → Nat → Bool

/-- The candidate edge list of one attempt. -/
def HCAttempt.candidateEdges (a : HCAttempt) : List Edge :=
  extraEdges a.coin a.n (cycleEdges a.cycle)

/-- A generated Hamiltonian-cycle instance `{nodes, edges, cycle}`. -/
structure HCInst where
  nodeIds : List Nat
  edges : List Edge
  cycle : List Nat
deriving Repr

/-- `generateHamiltonianGraph()` over an explicit attempt list
(`maxAttempts = 20`): accept the first attempt on which
`findHamiltonianCycle` succeeds, else the hardcoded triangle fallback. -/
def generateHamiltonianGraph : List HCAttempt → HCInst
  | [] => ⟨[0, 1, 2], [⟨0, 1⟩, ⟨1, 2⟩, ⟨2, 0⟩], [0, 1, 2]⟩
  | a :: rest =>
    match findHamiltonianCycle a.n a.candidateEdges with
    | some c => ⟨List.range a.n, a.candidateEdges, c⟩
    | none => generateHamiltonianGraph rest

/-- `cycle.slice(offset).concat(cycle.slice(0, offset))`. -/
def rotateList (l : List Nat) (off : Nat) : List Nat :=
  l.drop off ++ l.take off

/-- `rotated.every((v, i) => v === selected[i])`. -/
def seqMatches (rot selected : List Nat) : Bool :=
  (List.range rot.length).all fun i => rot.getD i 0 == selected.getD i 0

/-- The rotation/reflection matching loop of the win-detection `useEffect`:
some offset's rotation of the witness cycle, or its reverse, coincides
elementwise with the selection. -/
def hamMatch (cycle selected : List Nat) : Bool :=
  (List.range cycle.length).any fun off =>
    let rotated := rotateList cycle off
    seqMatches rotated selected || seqMatches rotated.reverse selected

/-- The score update the win-detection `useEffect` performs: `score + 1`
exactly when the round is live, the selection is full, and the match
succeeds. -/
def hamWinScore (gameOver showCorrect : Bool) (nNodes : Nat)
    (cycle selected : List Nat) (score : Nat) : Nat :=
  if !gameOver && !showCorrect && selected.length == nNodes &&
      hamMatch cycle selected then
    score + 1
  else score

/-! ## TSP (TravelingSalesmanGame.jsx) -/

/-- The closed-tour length of `path` as computed by the `reduce` in
`permute` and in the win check: `Σ_i d(path[i], path[(i+1) % path.length])`.
(The source's `% n` uses the node count, which equals `path.length` at
every point where the reduce runs.) -/
def cycleLenAt (d : Nat → Nat → Nat) (path : List Nat) : Nat :=
  (List.range path.length).foldl
    (fun s i => s + d (path.getD i 0) (path.getD ((i + 1) % path.length) 0))
    0

/-- `permute(path, remaining)` of `getOptimalTour`, with the
`bestLen/bestTour` accumulator threaded as an `Option` (`none` is the
initial `Infinity`): at a leaf, keep the tour iff strictly shorter; else
recurse on each `remaining[i]` with it removed. Recursion is by
`fuel = remaining.length` (every call site maintains that equality; the
fuel-exhausted non-leaf branch is unreachable). -/
def permuteTSP (d : Nat → Nat → Nat) :
    Nat → List Nat → List Nat → Option (Nat × List Nat) →
      Option (Nat × List Nat)
  | _, path, [], best =>
    let len := cycleLenAt d path
    match best with
    | some (bl, bt) =>
      if len < bl then some (len, path ++ [path.getD 0 0]) else some (bl, bt)
    | none => some (len, path ++ [path.getD 0 0])
  | 0, _, _ :: _, best => best
  | fuel + 1, path, v :: rem', best =>
    (List.range (v :: rem').length).foldl
      (fun b i =>
        permuteTSP d fuel (path ++ [(v :: rem').getD i 0])
          ((v :: rem').eraseIdx i) b)
      best

/-- `getOptimalTour(nodes)` over the id-level distance oracle `d`:
`permute([0], [1, …, n-1], ∞)`. -/
def getOptimalTour (d : Nat → Nat → Nat) (n : Nat) :
    Option (Nat × List Nat) :=
  permuteTSP d ((List.range n).drop 1).length [0] ((List.range n).drop 1) none

/-- The TSP `handleNodeClick` state update: first click starts the path;
when the path holds all `n` nodes, only re-clicking the start closes it;
duplicate clicks are ignored; otherwise the node is appended. -/
def tspClick (n : Nat) (prev : List Nat) (id : Nat) : List Nat :=
  if prev.isEmpty then [id]
  else if prev.length == n && id == prev.getD 0 0 then prev ++ [id]
  else if prev.contains id then prev
  else prev ++ [id]

/-- The TSP win-check `useEffect`: fire exactly when the selection has
`n + 1` entries and its cyclic length equals the stored optimum. -/
def tspWinCheck (d : Nat → Nat → Nat) (n optimalLen : Nat)
    (selected : List Nat) : Bool :=
  selected.length == n + 1 && cycleLenAt d selected == optimalLen

/-! ## GraphUtils.js generators (for the instance invariants) -/

/-- A GraphUtils instance `{nodes, edges, k}` (`k` may be JS `null`). -/
structure GUInst where
  nodeIds : List Nat
  edges : List Edge
  k : Option Nat
deriving Repr

/-- `generateRandomGraph({nodeCount, edgeProbability})`: uniform random
edges (coins lambda-lifted), forced single edge if none, solver-derived
`k`. -/
def generateRandomGraph (coin : Nat → Nat → Bool) (n : Nat) : GUInst :=
  let edges := ensureEdge (randEdges coin n)
  ⟨List.range n, edges, findMinVertexCover n edges⟩

/-- Adding one nearest-neighbor candidate edge `{u: i, v}` in
`generatePlanarGraph`: skip if already present in either orientation, skip
if the crossing test fires, else append. The geometric crossing test is
the oracle `cross` (pure float geometry, generation-time only). -/
def planarAddNbr (cross : Edge → List Edge → Bool) (i : Nat)
    (acc : List Edge) (v : Nat) : List Edge :=
  if acc.any (fun e => (e.u == i && e.v == v) || (e.u == v && e.v == i)) then
    acc
  else if cross ⟨i, v⟩ acc then acc
  else acc ++ [⟨i, v⟩]

/-- The nearest-neighbor double loop of `generatePlanarGraph`: for each
node `i`, try its (up to `maxNeighbors`) nearest other nodes
`nbrs i = byDist.slice(1, 4).map(·.id)`. -/
def planarBaseEdges (n : Nat) (nbrs : Nat → List Nat)
    (cross : Edge → List Edge → Bool) : List Edge :=
  (List.range n).foldl (fun acc i => (nbrs i).foldl (planarAddNbr cross i) acc)
    []

/-- The connectivity patch: `if (edges.length < nodeCount - 1)` append the
path edges `{u: i-1, v: i}` for `i = 1 … n-1`. -/
def patchPath (n : Nat) (edges : List Edge) : List Edge :=
  if edges.length < n - 1 then
    edges ++ ((List.range n).drop 1).map (fun i => ⟨i - 1, i⟩)
  else edges

/-- `generatePlanarGraph({nodeCount, …})`: geometrically placed nodes get
ids `0 … n-1` in placement order; edges from the nearest-neighbor loop
plus the connectivity patch. -/
def generatePlanarGraph (n : Nat) (nbrs : Nat → List Nat)
    (cross : Edge → List Edge → Bool) : GUInst :=
  let edges := patchPath n (planarBaseEdges n nbrs cross)
  ⟨List.range n, edges, findMinVertexCover n edges⟩

/-- The instance invariants of the spec's data model: node ids are exactly
`0 … n-1` in order, and every edge joins two distinct existing node ids. -/
def InstInvariant (nodeIds : List Nat) (edges : List Edge) : Prop :=
  nodeIds = List.range nodeIds.length ∧
    ∀ e ∈ edges,
      e.u < nodeIds.length ∧ e.v < nodeIds.length ∧ e.u ≠ e.v

instance (nodeIds : List Nat) (edges : List Edge) :
    Decidable (InstInvariant nodeIds edges) := by
  unfold InstInvariant; infer_instance

/-- Well-formed adjacency structure for `n` nodes: `n` buckets, every
stored neighbor id below `n`. -/
def AdjWF (n : Nat) (adj : List (List Nat)) : Prop :=
  adj.length = n ∧ ∀ l ∈ adj, ∀ v ∈ l, v < n

/-- The existence of a completing extension for the Hamiltonian dfs at
node `u` with `fuel` steps left: `fuel` pairwise-distinct nodes, unused in
`used` and different from `u`, forming an adjacency chain from `u`, whose
last node is adjacent (in `adj`) back to the path head `h0`. -/
def HCExt (adj : List (List Nat)) (used : List Bool) (h0 u fuel : Nat) :
    Prop :=
  ∃ ext : List Nat, ext.length = fuel ∧
    List.Chain' (fun a b => b ∈ adj.getD a []) (u :: ext) ∧
    (∀ x ∈ ext, used.getD x false = false ∧ x ≠ u) ∧
    ext.Nodup ∧
    h0 ∈ adj.getD ((u :: ext).getLast?.getD 0) []

/-! # Theorems -/

/-! ## Generic helpers -/

theorem foldl_add_eq {α M : Type} [AddMonoid M] (g : α → M) :
    ∀ (l : List α) (a : M),
      l.foldl (fun s x => s + g x) a = a + (l.map g).sum := by
  intro l
  induction l with
  | nil => simp
  | cons x xs ih =>
    intro a
    rw [List.foldl_cons, ih, List.map_cons, List.sum_cons, add_assoc]

theorem mem_foldl_append {α β : Type} (f : α → List β) :
    ∀ (l : List α) (acc : List β) (x : β),
      x ∈ l.foldl (fun a i => a ++ f i) acc → x ∈ acc ∨ ∃ i ∈ l, x ∈ f i := by
  intro l
  induction l with
  | nil => simp
  | cons y ys ih =>
    intro acc x hx
    rcases ih (acc ++ f y) x hx with h | ⟨i, hi, hxi⟩
    · rcases List.mem_append.mp h with h | h
      · exact Or.inl h
      · exact Or.inr ⟨y, List.mem_cons_self y ys, h⟩
    · exact Or.inr ⟨i, List.mem_cons_of_mem y hi, hxi⟩

/-! ## C2: numeric-family generators embed feasible witnesses -/

theorem maskedSumZ_cons (v : Int) (vs : List Int) (b : Bool) (ms : List Bool) :
    maskedSumZ (v :: vs) (b :: ms) = (if b then v else 0) + maskedSumZ vs ms := by
  unfold maskedSumZ
  rw [List.zip_cons_cons, List.foldl_cons,
    foldl_add_eq (fun p : Int × Bool => if p.2 then p.1 else 0),
    foldl_add_eq (fun p : Int × Bool => if p.2 then p.1 else 0)]
  simp [add_assoc]

theorem unmaskedSumZ_cons (v : Int) (vs : List Int) (b : Bool) (ms : List Bool) :
    unmaskedSumZ (v :: vs) (b :: ms) =
      (if b then 0 else v) + unmaskedSumZ vs ms := by
  unfold unmaskedSumZ
  rw [List.zip_cons_cons, List.foldl_cons,
    foldl_add_eq (fun p : Int × Bool => if p.2 then 0 else p.1),
    foldl_add_eq (fun p : Int × Bool => if p.2 then 0 else p.1)]
  simp [add_assoc]

/-- Reassembling the two groups along the mask recovers the group sums, the
full length, and only values from the two groups. -/
theorem assembleValues_spec :
    ∀ (mask : List Bool) (xs ys : List Int),
      xs.length = mask.count true → ys.length = mask.count false →
      maskedSumZ (assembleValues mask xs ys) mask = xs.sum ∧
        unmaskedSumZ (assembleValues mask xs ys) mask = ys.sum ∧
        (assembleValues mask xs ys).length = mask.length ∧
        ∀ v ∈ assembleValues mask xs ys, v ∈ xs ∨ v ∈ ys := by
  intro mask
  induction mask with
  | nil =>
    intro xs ys hx hy
    simp only [List.count_nil] at hx hy
    rw [List.length_eq_zero] at hx hy
    subst hx; subst hy
    simp [assembleValues, maskedSumZ, unmaskedSumZ]
  | cons b ms ih =>
    intro xs ys hx hy
    cases b with
    | true =>
      simp only [List.count_cons] at hx hy
      simp at hx hy
      cases xs with
      | nil => exfalso; simp at hx
      | cons x xs' =>
        simp only [List.length_cons] at hx
        have hx' : xs'.length = ms.count true := by omega
        obtain ⟨h1, h2, h3, h4⟩ := ih xs' ys hx' hy
        refine ⟨?_, ?_, ?_, ?_⟩
        · simp [assembleValues, maskedSumZ_cons, h1]
        · simp [assembleValues, unmaskedSumZ_cons, h2]
        · simp [assembleValues, h3]
        · intro v hv
          simp only [assembleValues, List.mem_cons] at hv
          rcases hv with rfl | hv
          · exact Or.inl (List.mem_cons_self _ _)
          · rcases h4 v hv with h | h
            · exact Or.inl (List.mem_cons_of_mem _ h)
            · exact Or.inr h
    | false =>
      simp only [List.count_cons] at hx hy
      simp at hx hy
      cases ys with
      | nil => exfalso; simp at hy
      | cons y ys' =>
        simp only [List.length_cons] at hy
        have hy' : ys'.length = ms.count false := by omega
        obtain ⟨h1, h2, h3, h4⟩ := ih xs ys' hx hy'
        refine ⟨?_, ?_, ?_, ?_⟩
        · simp [assembleValues, maskedSumZ_cons, h1]
        · simp [assembleValues, unmaskedSumZ_cons, h2]
        · simp [assembleValues, h3]
        · intro v hv
          simp only [assembleValues, List.mem_cons] at hv
          rcases hv with rfl | hv
          · exact Or.inr (List.mem_cons_self _ _)
          · rcases h4 v hv with h | h
            · exact Or.inl h
            · exact Or.inr (List.mem_cons_of_mem _ h)

theorem partitionYs_sum (sumX : Int) (ys0 : List Int) (c : Nat) :
    (partitionYs sumX ys0 c).sum = sumX := by
  unfold partitionYs
  split
  · simp
  · simp

theorem partitionYs_length (sumX : Int) (ys0 : List Int) (c : Nat)
    (hc : 1 ≤ c) (hlen : c ≠ 1 → ys0.length = c - 1) :
    (partitionYs sumX ys0 c).length = c := by
  unfold partitionYs
  split
  · simp; omega
  · rename_i h
    have := hlen h
    simp [this]
    omega

/-- C2: every problem returned by the numeric-family generators embeds a
feasible witness mask. Subset sum (`generateProblem` of
src/src/components/SubsetSumGame.jsx): the mask-true values sum exactly to
the returned target and the mask (accepted by the `while (count === 0)`
re-roll) has at least one true entry. Partition
(`generatePartitionProblem`): for an accepted iteration of the
`while (true)` loop — mask non-trivial, sampled values in
`[minV, maxV]`, and the `continue` guards passed (`sumX` in range when one
complement slot, the balancing value `sumX - sumY` in range otherwise) —
the assembled values have equal mask-true and mask-false sums, the mask is
neither all-true nor all-false, and every value lies in `[minV, maxV]`. -/
theorem numeric_generators_embed_feasible_witness
    (values : List Nat) (mask : List Bool)
    (minV maxV : Int) (pmask : List Bool) (xs ys0 : List Int)
    (hmask : 0 < mask.count true)
    (hpt : pmask.contains true) (hpf : pmask.contains false)
    (hxs : xs.length = pmask.count true)
    (hxr : ∀ x ∈ xs, minV ≤ x ∧ x ≤ maxV)
    (hys : pmask.count false ≠ 1 → ys0.length = pmask.count false - 1)
    (hyr : ∀ y ∈ ys0, minV ≤ y ∧ y ≤ maxV)
    (hg1 : pmask.count false = 1 → minV ≤ xs.sum ∧ xs.sum ≤ maxV)
    (hg2 : pmask.count false ≠ 1 →
      minV ≤ xs.sum - ys0.sum ∧ xs.sum - ys0.sum ≤ maxV) :
    (generateProblem values mask).target =
        maskedSum (generateProblem values mask).values
          (generateProblem values mask).mask ∧
      0 < (generateProblem values mask).mask.count true ∧
      maskedSumZ (generatePartitionProblem pmask xs ys0) pmask =
        unmaskedSumZ (generatePartitionProblem pmask xs ys0) pmask ∧
      pmask.contains true ∧ pmask.contains false ∧
      ∀ v ∈ generatePartitionProblem pmask xs ys0, minV ≤ v ∧ v ≤ maxV := by
  have hfmem : false ∈ pmask := by simpa using hpf
  have hc : 1 ≤ pmask.count false := List.count_pos_iff.mpr hfmem
  have ylen : (partitionYs xs.sum ys0 (pmask.count false)).length =
      pmask.count false := partitionYs_length _ _ _ hc hys
  obtain ⟨h1, h2, _h3, h4⟩ :=
    assembleValues_spec pmask xs (partitionYs xs.sum ys0 (pmask.count false))
      hxs ylen
  refine ⟨rfl, hmask, ?_, hpt, hpf, ?_⟩
  · show maskedSumZ (assembleValues _ _ _) _ = unmaskedSumZ (assembleValues _ _ _) _
    rw [h1, h2, partitionYs_sum]
  · intro v hv
    rcases h4 v hv with hmem | hmem
    · exact hxr v hmem
    · unfold partitionYs at hmem
      split at hmem
      · rename_i hone
        simp at hmem
        subst hmem
        exact hg1 hone
      · rename_i hone
        rcases List.mem_append.mp hmem with h | h
        · exact hyr v h
        · simp at h
          subst h
          exact hg2 hone

/-- Witness for C2 at a concrete input: subset-sum values `[4, 13, 20]`
with mask all-true (target `37`); partition mask `[true, false]`,
`xs = [5]`, range `[1, 20]` (one complement slot, `ys = [5]`). -/
theorem numeric_generators_embed_feasible_witness_concrete :
    (generateProblem [4, 13, 20] [true, true, true]).target =
        maskedSum (generateProblem [4, 13, 20] [true, true, true]).values
          (generateProblem [4, 13, 20] [true, true, true]).mask ∧
      0 < (generateProblem [4, 13, 20] [true, true, true]).mask.count true ∧
      maskedSumZ (generatePartitionProblem [true, false] [5] []) [true, false] =
        unmaskedSumZ (generatePartitionProblem [true, false] [5] [])
          [true, false] ∧
      ([true, false] : List Bool).contains true ∧
      ([true, false] : List Bool).contains false ∧
      ∀ v ∈ generatePartitionProblem [true, false] [5] [],
        (1 : Int) ≤ v ∧ v ≤ 20 :=
  numeric_generators_embed_feasible_witness [4, 13, 20] [true, true, true]
    1 20 [true, false] [5] []
    (by decide) (by decide) (by decide) (by decide)
    (by decide) (by decide) (by decide) (by decide) (by decide)

/-! ## C4: the Hamiltonian-cycle win check accepts every rotation and
every reversed rotation of the witness cycle -/

theorem seqMatches_refl (l : List Nat) : seqMatches l l = true := by
  unfold seqMatches
  rw [List.all_eq_true]
  intro i _
  simp

theorem rotateList_length (l : List Nat) (off : Nat) :
    (rotateList l off).length = l.length := by
  unfold rotateList
  rw [List.length_append, List.length_drop, List.length_take]
  omega

theorem hamMatch_of_rotation (cycle : List Nat) (off : Nat)
    (hoff : off < cycle.length) :
    hamMatch cycle (rotateList cycle off) = true := by
  unfold hamMatch
  rw [List.any_eq_true]
  exact ⟨off, List.mem_range.mpr hoff, by simp [seqMatches_refl]⟩

theorem hamMatch_of_reversed_rotation (cycle : List Nat) (off : Nat)
    (hoff : off < cycle.length) :
    hamMatch cycle (rotateList cycle off).reverse = true := by
  unfold hamMatch
  rw [List.any_eq_true]
  exact ⟨off, List.mem_range.mpr hoff, by simp [seqMatches_refl]⟩

/-- C4: for every witness cycle and every rotation offset, submitting the
rotated cycle — or the reverse of the rotated cycle — as the full
selection during a live round makes the win-detection `useEffect` match
and increment the score. -/
theorem hamcycle_win_accepts_rotations_and_reflections
    (cycle : List Nat) (off score : Nat) (hoff : off < cycle.length) :
    hamWinScore false false cycle.length cycle (rotateList cycle off) score =
        score + 1 ∧
      hamWinScore false false cycle.length cycle
          (rotateList cycle off).reverse score =
        score + 1 := by
  constructor
  · unfold hamWinScore
    rw [if_pos]
    simp [rotateList_length, hamMatch_of_rotation cycle off hoff]
  · unfold hamWinScore
    rw [if_pos]
    simp [rotateList_length, hamMatch_of_reversed_rotation cycle off hoff]

/-- Witness for C4 at the concrete cycle `[0, 1, 2, 3]`, offset `1`. -/
theorem hamcycle_win_accepts_rotations_and_reflections_concrete :
    hamWinScore false false 4 [0, 1, 2, 3] (rotateList [0, 1, 2, 3] 1) 5 =
        6 ∧
      hamWinScore false false 4 [0, 1, 2, 3]
          (rotateList [0, 1, 2, 3] 1).reverse 5 =
        6 :=
  hamcycle_win_accepts_rotations_and_reflections [0, 1, 2, 3] 1 5 (by decide)

/-! ## C10: the selected set never exceeds `graph.k` elements -/

theorem handleNodeClick_card_le (k : Nat) (s : Finset Nat) (id : Nat)
    (h : s.card ≤ k) : (handleNodeClick k s id).card ≤ k := by
  unfold handleNodeClick
  split
  · exact le_trans (Finset.card_erase_le) h
  · split
    · rename_i hlt
      exact le_trans (Finset.card_insert_le _ _) (by omega)
    · exact h

theorem cliqueHandleNodeClick_card_le (k : Nat) (s : Finset Nat) (id : Nat)
    (h : s.card ≤ k) : (cliqueHandleNodeClick k s id).card ≤ k := by
  unfold cliqueHandleNodeClick
  split
  · exact le_trans (Finset.card_erase_le) h
  · split
    · rename_i hlt
      exact le_trans (Finset.card_insert_le _ _) (by omega)
    · exact h

theorem foldl_click_card_le (step : Nat → Finset Nat → Nat → Finset Nat)
    (k : Nat)
    (hstep : ∀ s id, s.card ≤ k → (step k s id).card ≤ k) :
    ∀ (clicks : List Nat) (s : Finset Nat), s.card ≤ k →
      (clicks.foldl (step k) s).card ≤ k := by
  intro clicks
  induction clicks with
  | nil => intro s h; exact h
  | cons c cs ih => intro s h; exact ih _ (hstep s c h)

/-- C10: starting from the empty selection installed with each new graph,
any sequence of node clicks in the vertex-cover game — and in the clique
game — leaves at most `graph.k` nodes selected. -/
theorem selection_never_exceeds_k (k : Nat) (clicks : List Nat) :
    (clicks.foldl (handleNodeClick k) ∅).card ≤ k ∧
      (clicks.foldl (cliqueHandleNodeClick k) ∅).card ≤ k :=
  ⟨foldl_click_card_le handleNodeClick k
      (fun s id => handleNodeClick_card_le k s id) clicks ∅ (by simp),
    foldl_click_card_le cliqueHandleNodeClick k
      (fun s id => cliqueHandleNodeClick_card_le k s id) clicks ∅ (by simp)⟩

/-! ## C5: no generated instance is satisfied by the trivial selection -/

theorem ensureEdge_ne_nil (edges : List Edge) : ensureEdge edges ≠ [] := by
  unfold ensureEdge
  split
  · simp
  · rename_i h
    simpa [List.isEmpty_iff] using h

theorem coversB_nil_sel (edges : List Edge) (h : edges ≠ []) :
    coversB edges [] = false := by
  cases edges with
  | nil => exact absurd rfl h
  | cons e rest => simp [coversB]

theorem vcWin_empty (edges : List Edge) (k : Nat) (h : edges ≠ []) :
    vcWin edges k ∅ = false := by
  cases edges with
  | nil => exact absurd rfl h
  | cons e rest => simp [vcWin]

theorem isWin_empty (edges : List Edge) (k : Nat) (h : 1 ≤ k) :
    isWin edges k ∅ = false := by
  unfold isWin
  rw [Finset.card_empty]
  have h0 : ((0 : Nat) == k) = false := beq_eq_false_iff_ne.mpr (by omega)
  rw [h0, Bool.false_and]

theorem generateGraphVC_edges_ne_nil :
    ∀ attempts : List VCAttempt, (generateGraphVC attempts).edges ≠ [] := by
  intro attempts
  induction attempts with
  | nil => simp [generateGraphVC]
  | cons a rest ih =>
    unfold generateGraphVC
    cases h : findMinVertexCover a.n a.candidateEdges with
    | none => simpa [h] using ih
    | some k => simpa [h] using ensureEdge_ne_nil (randEdges a.coin a.n)

theorem generateGraphIS_k_pos :
    ∀ attempts : List VCAttempt, 1 ≤ (generateGraphIS attempts).k := by
  intro attempts
  induction attempts with
  | nil => simp [generateGraphIS]
  | cons a rest ih =>
    unfold generateGraphIS
    dsimp only
    split
    · rename_i h
      exact h
    · exact ih

theorem getD_replicate_false (n i : Nat) :
    (List.replicate n false).getD i false = false := by
  induction n generalizing i with
  | zero => simp
  | succ m ih =>
    cases i with
    | zero => simp [List.replicate]
    | succ j => simp only [List.replicate, List.getD_cons_succ]; exact ih j

theorem litSat_all_false (n : Nat) (l : Literal) :
    litSat (List.replicate n false) l = l.neg := by
  unfold litSat
  rw [getD_replicate_false]
  cases l.neg <;> simp

theorem clause_any_all_false (n : Nat) (c : Clause) :
    c.any (litSat (List.replicate n false)) = c.any (·.neg) := by
  induction c with
  | nil => simp
  | cons l rest ih => simp [litSat_all_false, ih]

theorem formulaSat_all_false (n : Nat) (clauses : List Clause) :
    formulaSat (List.replicate n false) clauses =
      clauses.all (fun c => c.any (·.neg)) := by
  induction clauses with
  | nil => simp [formulaSat]
  | cons c rest ih =>
    simp only [formulaSat, List.all_cons] at ih ⊢
    rw [clause_any_all_false, ih]

theorem tryClauses_length (numClauses : Nat) (t : SatTry) :
    (tryClauses numClauses t).length = numClauses := by
  simp [tryClauses]

theorem generateFormula_accepted (numVars numClauses : Nat) :
    ∀ (tries : List SatTry) (f : Formula),
      generateFormula numVars numClauses tries = some f →
      f.clauses.length = numClauses ∧
        satReject numClauses f.clauses = false := by
  intro tries
  induction tries with
  | nil => intro f h; exact absurd h (by simp [generateFormula])
  | cons t rest ih =>
    intro f h
    unfold generateFormula at h
    dsimp only at h
    split at h
    · exact ih f h
    · rename_i hrej
      have : f.clauses = tryClauses numClauses t := by
        cases h; rfl
      rw [this, tryClauses_length]
      exact ⟨rfl, Bool.eq_false_iff.mpr hrej⟩

/-- C5: the empty selection / all-false assignment never satisfies a
generated instance. Every vertex-cover instance (any attempt list) has a
non-empty edge list, so the empty node set fails the covering predicate
(and the win check); every independent-set instance has target `k ≥ 1`, so
the empty node set fails the `selected.size === k` win check; and every
formula the 3-SAT rejection loop accepts has a clause with no negated
literal, so the all-false assignment falsifies it. -/
theorem generators_reject_trivial_solutions
    (vcAttempts isAttempts : List VCAttempt)
    (numVars numClauses : Nat) (tries : List SatTry) (f : Formula)
    (hf : generateFormula numVars numClauses tries = some f) :
    coversB (generateGraphVC vcAttempts).edges [] = false ∧
      vcWin (generateGraphVC vcAttempts).edges (generateGraphVC vcAttempts).k
          ∅ = false ∧
      1 ≤ (generateGraphIS isAttempts).k ∧
      isWin (generateGraphIS isAttempts).edges (generateGraphIS isAttempts).k
          ∅ = false ∧
      formulaSat (List.replicate numVars false) f.clauses = false := by
  refine ⟨coversB_nil_sel _ (generateGraphVC_edges_ne_nil vcAttempts),
    vcWin_empty _ _ (generateGraphVC_edges_ne_nil vcAttempts),
    generateGraphIS_k_pos isAttempts,
    isWin_empty _ _ (generateGraphIS_k_pos isAttempts), ?_⟩
  obtain ⟨hlen, hrej⟩ := generateFormula_accepted numVars numClauses tries f hf
  rw [formulaSat_all_false]
  unfold satReject at hrej
  rw [hlen] at hrej
  simpa using hrej

/-- Witness for C5: empty attempt lists (the hardcoded fallbacks) and a
one-variable, one-clause 3-SAT run whose single try is accepted. -/
theorem generators_reject_trivial_solutions_concrete :
    coversB (generateGraphVC []).edges [] = false ∧
      vcWin (generateGraphVC []).edges (generateGraphVC []).k ∅ = false ∧
      1 ≤ (generateGraphIS []).k ∧
      isWin (generateGraphIS []).edges (generateGraphIS []).k ∅ = false ∧
      formulaSat (List.replicate 1 false)
          (Formula.mk [[⟨0, false⟩]] [true] 1).clauses = false :=
  generators_reject_trivial_solutions [] [] 1 1
    [⟨[true], fun _ => ([0], [false], 0)⟩]
    (Formula.mk [[⟨0, false⟩]] [true] 1) (by rfl)

/-! ## C8: generated graph instances satisfy the data-model invariants -/

theorem foldl_preserve {α β : Type} (P : β → Prop) (f : β → α → β) :
    ∀ (l : List α) (acc : β), P acc →
      (∀ b x, x ∈ l → P b → P (f b x)) → P (l.foldl f acc) := by
  intro l
  induction l with
  | nil => intro acc h _; exact h
  | cons x xs ih =>
    intro acc h hstep
    exact ih _ (hstep acc x (List.mem_cons_self x xs) h)
      (fun b y hy hb => hstep b y (List.mem_cons_of_mem x hy) hb)

theorem randEdges_mem (coin : Nat → Nat → Bool) (n : Nat) :
    ∀ e ∈ randEdges coin n, e.u < e.v ∧ e.v < n := by
  intro e he
  unfold randEdges at he
  rcases mem_foldl_append _ _ _ _ he with h | ⟨i, _hi, hei⟩
  · simp at h
  · simp only [List.mem_map] at hei
    obtain ⟨j, hj, rfl⟩ := hei
    simp only [List.mem_filter, List.mem_range] at hj
    obtain ⟨hjn, hcond⟩ := hj
    have hij : i < j ∧ coin i j = true := by simpa using hcond
    exact ⟨hij.1, hjn⟩

theorem ensureEdge_mem (edges : List Edge) :
    ∀ e ∈ ensureEdge edges, e = ⟨0, 1⟩ ∨ e ∈ edges := by
  intro e he
  unfold ensureEdge at he
  split at he
  · simp at he; exact Or.inl he
  · exact Or.inr he

theorem generateRandomGraph_wellformed (coin : Nat → Nat → Bool) (n : Nat)
    (hn : 2 ≤ n) :
    InstInvariant (generateRandomGraph coin n).nodeIds
      (generateRandomGraph coin n).edges := by
  constructor
  · show List.range n = List.range (List.range n).length
    rw [List.length_range]
  · intro e he
    show e.u < (List.range n).length ∧ e.v < (List.range n).length ∧ e.u ≠ e.v
    rw [List.length_range]
    rcases ensureEdge_mem _ e he with rfl | hmem
    · refine ⟨?_, ?_, ?_⟩ <;> dsimp only <;> omega
    · obtain ⟨huv, hvn⟩ := randEdges_mem coin n e hmem
      exact ⟨by omega, hvn, by omega⟩

theorem planarAddNbr_mem (cross : Edge → List Edge → Bool) (i : Nat)
    (acc : List Edge) (v : Nat) :
    ∀ e ∈ planarAddNbr cross i acc v, e ∈ acc ∨ e = ⟨i, v⟩ := by
  intro e he
  unfold planarAddNbr at he
  split at he
  · exact Or.inl he
  · split at he
    · exact Or.inl he
    · rcases List.mem_append.mp he with h | h
      · exact Or.inl h
      · simp at h; exact Or.inr h

theorem planarBaseEdges_mem (n : Nat) (nbrs : Nat → List Nat)
    (cross : Edge → List Edge → Bool)
    (hnbrs : ∀ i v, v ∈ nbrs i → v < n ∧ v ≠ i) :
    ∀ e ∈ planarBaseEdges n nbrs cross,
      e.u < n ∧ e.v < n ∧ e.u ≠ e.v := by
  unfold planarBaseEdges
  refine foldl_preserve
    (fun acc : List Edge => ∀ e ∈ acc, e.u < n ∧ e.v < n ∧ e.u ≠ e.v)
    _ _ _ (by simp) ?_
  intro acc i hi hacc
  refine foldl_preserve
    (fun acc : List Edge => ∀ e ∈ acc, e.u < n ∧ e.v < n ∧ e.u ≠ e.v)
    _ _ _ hacc ?_
  intro b v hv hb e he
  rcases planarAddNbr_mem cross i b v e he with h | rfl
  · exact hb e h
  · obtain ⟨hvn, hvi⟩ := hnbrs i v hv
    exact ⟨List.mem_range.mp hi, hvn, fun h => hvi h.symm⟩

theorem patchPath_mem (n : Nat) (edges : List Edge)
    (h : ∀ e ∈ edges, e.u < n ∧ e.v < n ∧ e.u ≠ e.v) :
    ∀ e ∈ patchPath n edges, e.u < n ∧ e.v < n ∧ e.u ≠ e.v := by
  intro e he
  unfold patchPath at he
  split at he
  · rcases List.mem_append.mp he with hm | hm
    · exact h e hm
    · simp only [List.mem_map] at hm
      obtain ⟨i, hi, rfl⟩ := hm
      cases n with
      | zero => simp at hi
      | succ m =>
        rw [List.range_succ_eq_map, List.drop_succ_cons, List.drop_zero] at hi
        obtain ⟨j, hj, rfl⟩ := List.mem_map.mp hi
        have hjm : j < m := List.mem_range.mp hj
        refine ⟨?_, ?_, ?_⟩ <;> dsimp only <;> omega
  · exact h e he

theorem generatePlanarGraph_wellformed (n : Nat) (nbrs : Nat → List Nat)
    (cross : Edge → List Edge → Bool)
    (hnbrs : ∀ i v, v ∈ nbrs i → v < n ∧ v ≠ i) :
    InstInvariant (generatePlanarGraph n nbrs cross).nodeIds
      (generatePlanarGraph n nbrs cross).edges := by
  constructor
  · show List.range n = List.range (List.range n).length
    rw [List.length_range]
  · intro e he
    show e.u < (List.range n).length ∧ e.v < (List.range n).length ∧ e.u ≠ e.v
    rw [List.length_range]
    exact patchPath_mem n _ (planarBaseEdges_mem n nbrs cross hnbrs) e he

theorem getD_eq_getElem_of_lt (l : List Nat) (i : Nat) (h : i < l.length) :
    l.getD i 0 = l[i] := by
  rw [List.getD_eq_getElem?_getD, List.getElem?_eq_getElem h, Option.getD_some]

theorem cycleEdges_mem (n : Nat) (cycle : List Nat) (hn : 2 ≤ n)
    (hp : List.Perm cycle (List.range n)) :
    ∀ e ∈ cycleEdges cycle, e.u < n ∧ e.v < n ∧ e.u ≠ e.v := by
  intro e he
  unfold cycleEdges at he
  obtain ⟨i, hi, rfl⟩ := List.mem_map.mp he
  have hlen : cycle.length = n := by rw [hp.length_eq, List.length_range]
  have hi1 : i < cycle.length := List.mem_range.mp hi
  have hi2 : (i + 1) % cycle.length < cycle.length :=
    Nat.mod_lt _ (by omega)
  have hnodup : cycle.Nodup := hp.nodup_iff.mpr (List.nodup_range n)
  have hmemu : cycle.getD i 0 ∈ cycle := by
    rw [getD_eq_getElem_of_lt cycle i hi1]
    exact List.getElem_mem hi1
  have hmemv : cycle.getD ((i + 1) % cycle.length) 0 ∈ cycle := by
    rw [getD_eq_getElem_of_lt cycle _ hi2]
    exact List.getElem_mem hi2
  have hub : cycle.getD i 0 < n :=
    List.mem_range.mp (hp.subset hmemu)
  have hvb : cycle.getD ((i + 1) % cycle.length) 0 < n :=
    List.mem_range.mp (hp.subset hmemv)
  have hne : i ≠ (i + 1) % cycle.length := by
    rcases Nat.lt_or_ge (i + 1) cycle.length with h | h
    · rw [Nat.mod_eq_of_lt h]; omega
    · have : i + 1 = cycle.length := by omega
      rw [this, Nat.mod_self]
      omega
  refine ⟨hub, hvb, ?_⟩
  dsimp only
  rw [getD_eq_getElem_of_lt cycle i hi1, getD_eq_getElem_of_lt cycle _ hi2]
  intro hcontra
  exact hne (hnodup.getElem_inj_iff.mp hcontra)

theorem extraEdges_mem (coin : Nat → Nat → Bool) (n : Nat)
    (start : List Edge) :
    ∀ e ∈ extraEdges coin n start,
      e ∈ start ∨ (e.u < e.v ∧ e.v < n) := by
  unfold extraEdges
  refine foldl_preserve
    (fun acc : List Edge => ∀ e ∈ acc, e ∈ start ∨ (e.u < e.v ∧ e.v < n))
    _ _ _ (fun e he => Or.inl he) ?_
  intro acc i _hi hacc
  refine foldl_preserve
    (fun acc : List Edge => ∀ e ∈ acc, e ∈ start ∨ (e.u < e.v ∧ e.v < n))
    _ _ _ hacc ?_
  intro b j hj hb e he
  split at he
  · rcases List.mem_append.mp he with h | h
    · exact hb e h
    · simp only [List.mem_singleton] at h
      subst h
      rename_i hcond
      have : i < j := by
        have h1 := (Bool.and_eq_true _ _).mp hcond
        have h2 := (Bool.and_eq_true _ _).mp h1.1
        simpa using h2.1
      exact Or.inr ⟨this, List.mem_range.mp hj⟩
  · exact hb e he

theorem generateHamiltonianGraph_wellformed :
    ∀ attempts : List HCAttempt,
      (∀ a ∈ attempts, 2 ≤ a.n ∧ List.Perm a.cycle (List.range a.n)) →
      InstInvariant (generateHamiltonianGraph attempts).nodeIds
        (generateHamiltonianGraph attempts).edges := by
  intro attempts
  induction attempts with
  | nil => intro _; decide
  | cons a rest ih =>
    intro hyp
    obtain ⟨hn, hperm⟩ := hyp a (List.mem_cons_self a rest)
    unfold generateHamiltonianGraph
    cases hfind : findHamiltonianCycle a.n a.candidateEdges with
    | none =>
      exact ih (fun b hb => hyp b (List.mem_cons_of_mem a hb))
    | some c =>
      constructor
      · show List.range a.n = List.range (List.range a.n).length
        rw [List.length_range]
      · intro e he
        show e.u < (List.range a.n).length ∧
          e.v < (List.range a.n).length ∧ e.u ≠ e.v
        rw [List.length_range]
        rcases extraEdges_mem a.coin a.n _ e he with h | ⟨h1, h2⟩
        · exact cycleEdges_mem a.n a.cycle hn hperm e h
        · exact ⟨by omega, h2, by omega⟩

/-- C8: every instance the graph generators produce satisfies the
data-model invariants — node ids are exactly `0 … n-1` and every edge
joins two distinct node ids below `n`. For the uniform-random generator
the sampled `nodeCount ≥ 2` (the source draws 6–9) covers the forced
`{u:0, v:1}` edge; for the planar generator the nearest-neighbor
candidate lists contain only other nodes' ids (`byDist` is sorted by
distance, and position 0 — distance 0 — is the node itself, all other
nodes being at least `minDist` away); for the Hamiltonian construction
the shuffled cycle is a permutation of the ids and `nodeCount ≥ 2`
(the source draws 5–8). -/
theorem generated_instances_wellformed
    (coin : Nat → Nat → Bool) (n : Nat)
    (pn : Nat) (nbrs : Nat → List Nat) (cross : Edge → List Edge → Bool)
    (attempts : List HCAttempt)
    (hn : 2 ≤ n)
    (hnbrs : ∀ i v, v ∈ nbrs i → v < pn ∧ v ≠ i)
    (hatt : ∀ a ∈ attempts, 2 ≤ a.n ∧ List.Perm a.cycle (List.range a.n)) :
    InstInvariant (generateRandomGraph coin n).nodeIds
        (generateRandomGraph coin n).edges ∧
      InstInvariant (generatePlanarGraph pn nbrs cross).nodeIds
        (generatePlanarGraph pn nbrs cross).edges ∧
      InstInvariant (generateHamiltonianGraph attempts).nodeIds
        (generateHamiltonianGraph attempts).edges :=
  ⟨generateRandomGraph_wellformed coin n hn,
    generatePlanarGraph_wellformed pn nbrs cross hnbrs,
    generateHamiltonianGraph_wellformed attempts hatt⟩

/-- Witness for C8 at concrete inputs: a two-node random graph with no
coin firing (forced edge), a two-node planar layout whose neighbor lists
are each other, and one Hamiltonian attempt on three nodes with shuffled
cycle `[2, 0, 1]`. -/
theorem generated_instances_wellformed_concrete :
    InstInvariant (generateRandomGraph (fun _ _ => false) 2).nodeIds
        (generateRandomGraph (fun _ _ => false) 2).edges ∧
      InstInvariant
        (generatePlanarGraph 2 (fun i => [1 - i]) (fun _ _ => false)).nodeIds
        (generatePlanarGraph 2 (fun i => [1 - i]) (fun _ _ => false)).edges ∧
      InstInvariant
        (generateHamiltonianGraph [⟨3, [2, 0, 1], fun _ _ => false⟩]).nodeIds
        (generateHamiltonianGraph [⟨3, [2, 0, 1], fun _ _ => false⟩]).edges :=
  generated_instances_wellformed (fun _ _ => false) 2 2 (fun i => [1 - i])
    (fun _ _ => false) [⟨3, [2, 0, 1], fun _ _ => false⟩]
    (by omega)
    (by
      intro i v hv
      simp only [List.mem_singleton] at hv
      subst hv
      omega)
    (by
      intro a ha
      simp only [List.mem_singleton] at ha
      subst ha
      exact ⟨by decide, by decide⟩)

/-! ## C1/C9: `findMinVertexCover` computes the minimum cover size -/

theorem selOfMask_mem (n mask i : Nat) :
    i ∈ selOfMask n mask ↔ i < n ∧ mask.testBit i = true := by
  unfold selOfMask
  simp [List.mem_filter]

theorem selOfMask_nodup (n mask : Nat) : (selOfMask n mask).Nodup :=
  (List.nodup_range n).filter _

theorem maskOfSet_lt (S : Finset Nat) : ∀ k, maskOfSet S k < 2 ^ k := by
  intro k
  induction k with
  | zero => simp [maskOfSet]
  | succ k ih =>
    have h2 : 2 ^ (k + 1) = 2 ^ k + 2 ^ k := by rw [pow_succ]; omega
    unfold maskOfSet
    split <;> omega

theorem testBit_maskOfSet (S : Finset Nat) :
    ∀ k j, (maskOfSet S k).testBit j =
      (decide (j ∈ S) && decide (j < k)) := by
  intro k
  induction k with
  | zero => intro j; simp [maskOfSet]
  | succ k ih =>
    intro j
    unfold maskOfSet
    by_cases hk : k ∈ S
    · rw [if_pos hk]
      have heq : 2 ^ k + maskOfSet S k = 2 ^ k * 1 + maskOfSet S k := by ring
      rw [heq, Nat.testBit_mul_pow_two_add 1 (maskOfSet_lt S k) j]
      rcases Nat.lt_trichotomy j k with h | h | h
      · rw [if_pos h, ih j]
        have d1 : decide (j < k) = true := decide_eq_true h
        have d2 : decide (j < k + 1) = true := decide_eq_true (by omega)
        rw [d1, d2]
      · subst h
        rw [if_neg (by omega), Nat.sub_self, Nat.testBit_one_zero]
        have d1 : decide (j ∈ S) = true := decide_eq_true hk
        have d2 : decide (j < j + 1) = true := decide_eq_true (by omega)
        rw [d1, d2, Bool.and_self]
      · rw [if_neg (by omega)]
        have h1 : (1 : Nat).testBit (j - k) = false :=
          Nat.testBit_lt_two_pow (by
            have : 1 ≤ j - k := by omega
            calc (1 : Nat) < 2 := by omega
              _ ≤ 2 ^ (j - k) := by
                  calc (2 : Nat) = 2 ^ 1 := by norm_num
                    _ ≤ 2 ^ (j - k) := Nat.pow_le_pow_right (by omega) this)
        rw [h1]
        have d2 : decide (j < k + 1) = false := decide_eq_false (by omega)
        rw [d2, Bool.and_false]
    · rw [if_neg hk, Nat.zero_add, ih j]
      rcases Nat.lt_trichotomy j k with h | h | h
      · have d1 : decide (j < k) = true := decide_eq_true h
        have d2 : decide (j < k + 1) = true := decide_eq_true (by omega)
        rw [d1, d2]
      · subst h
        have d0 : decide (j ∈ S) = false := decide_eq_false hk
        rw [d0, Bool.false_and, Bool.false_and]
      · have d1 : decide (j < k) = false := decide_eq_false (by omega)
        have d2 : decide (j < k + 1) = false := decide_eq_false (by omega)
        rw [d1, d2]

theorem selOfMask_maskOfSet (n : Nat) (S : Finset Nat)
    (hS : ∀ i ∈ S, i < n) :
    (selOfMask n (maskOfSet S n)).toFinset = S := by
  ext i
  rw [List.mem_toFinset, selOfMask_mem, testBit_maskOfSet]
  constructor
  · rintro ⟨hin, hbit⟩
    have := (Bool.and_eq_true _ _).mp hbit
    exact of_decide_eq_true this.1
  · intro hiS
    refine ⟨hS i hiS, ?_⟩
    rw [decide_eq_true hiS, decide_eq_true (hS i hiS), Bool.and_self]

theorem selOfMask_maskOfSet_length (n : Nat) (S : Finset Nat)
    (hS : ∀ i ∈ S, i < n) :
    (selOfMask n (maskOfSet S n)).length = S.card := by
  have h := selOfMask_maskOfSet n S hS
  calc (selOfMask n (maskOfSet S n)).length
      = (selOfMask n (maskOfSet S n)).toFinset.card :=
        (List.toFinset_card_of_nodup (selOfMask_nodup n _)).symm
    _ = S.card := by rw [h]

theorem coversB_iff_coversSpec (edges : List Edge) (sel : List Nat) :
    coversB edges sel = true ↔ CoversSpec edges sel.toFinset := by
  unfold coversB CoversSpec
  rw [List.all_eq_true]
  constructor
  · intro h e he
    have := h e he
    rcases (Bool.or_eq_true _ _).mp this with h1 | h1
    · exact Or.inl (by rw [List.mem_toFinset]; simpa using h1)
    · exact Or.inr (by rw [List.mem_toFinset]; simpa using h1)
  · intro h e he
    rcases h e he with h1 | h1
    · exact (Bool.or_eq_true _ _).mpr (Or.inl
        (by simpa using List.mem_toFinset.mp h1))
    · exact (Bool.or_eq_true _ _).mpr (Or.inr
        (by simpa using List.mem_toFinset.mp h1))

theorem vcStep_inv (n : Nat) (edges : List Edge) (l1 : List Nat)
    (b : Option Nat) (mk0 : Nat)
    (h : (∀ m, b = some m →
        (∃ mk ∈ l1, coversB edges (selOfMask n mk) = true ∧
          (selOfMask n mk).length = m) ∧
        ∀ mk ∈ l1, coversB edges (selOfMask n mk) = true →
          m ≤ (selOfMask n mk).length) ∧
      (b = none → ∀ mk ∈ l1, coversB edges (selOfMask n mk) = false)) :
    (∀ m, vcStep n edges b mk0 = some m →
        (∃ mk ∈ l1 ++ [mk0], coversB edges (selOfMask n mk) = true ∧
          (selOfMask n mk).length = m) ∧
        ∀ mk ∈ l1 ++ [mk0], coversB edges (selOfMask n mk) = true →
          m ≤ (selOfMask n mk).length) ∧
      (vcStep n edges b mk0 = none →
        ∀ mk ∈ l1 ++ [mk0], coversB edges (selOfMask n mk) = false) := by
  obtain ⟨hsome, hnone⟩ := h
  cases b with
  | none =>
    unfold vcStep
    dsimp only
    by_cases hcov : coversB edges (selOfMask n mk0) = true
    · refine ⟨?_, ?_⟩
      · intro m hm
        rw [if_pos hcov] at hm
        injection hm with hm
        constructor
        · exact ⟨mk0, by simp, hcov, hm⟩
        · intro mk hmk hmkcov
          rcases List.mem_append.mp hmk with h1 | h1
          · rw [hnone rfl mk h1] at hmkcov
            exact absurd hmkcov (by simp)
          · simp only [List.mem_singleton] at h1
            subst h1
            omega
      · intro hcontra
        rw [if_pos hcov] at hcontra
        exact absurd hcontra (by simp)
    · refine ⟨?_, ?_⟩
      · intro m hm
        rw [if_neg hcov] at hm
        exact absurd hm (by simp)
      · intro _ mk hmk
        rcases List.mem_append.mp hmk with h1 | h1
        · exact hnone rfl mk h1
        · simp only [List.mem_singleton] at h1
          subst h1
          exact Bool.eq_false_iff.mpr hcov
  | some bv =>
    unfold vcStep
    dsimp only
    by_cases hle : bv ≤ (selOfMask n mk0).length
    · rw [if_pos hle]
      refine ⟨?_, by intro hcontra; exact absurd hcontra (by simp)⟩
      intro m hm
      injection hm with hm
      subst hm
      obtain ⟨hex, hmin⟩ := hsome bv rfl
      constructor
      · obtain ⟨mk, hmk, hc, hl⟩ := hex
        exact ⟨mk, List.mem_append.mpr (Or.inl hmk), hc, hl⟩
      · intro mk hmk hc
        rcases List.mem_append.mp hmk with h1 | h1
        · exact hmin mk h1 hc
        · simp only [List.mem_singleton] at h1
          subst h1
          exact hle
    · rw [if_neg hle]
      by_cases hcov : coversB edges (selOfMask n mk0) = true
      · rw [if_pos hcov]
        refine ⟨?_, by intro hcontra; exact absurd hcontra (by simp)⟩
        intro m hm
        injection hm with hm
        obtain ⟨hex, hmin⟩ := hsome bv rfl
        constructor
        · exact ⟨mk0, List.mem_append.mpr (Or.inr (by simp)), hcov, hm⟩
        · intro mk hmk hc
          rcases List.mem_append.mp hmk with h1 | h1
          · have := hmin mk h1 hc
            omega
          · simp only [List.mem_singleton] at h1
            subst h1
            omega
      · rw [if_neg hcov]
        refine ⟨?_, by intro hcontra; exact absurd hcontra (by simp)⟩
        intro m hm
        injection hm with hm
        subst hm
        obtain ⟨hex, hmin⟩ := hsome bv rfl
        constructor
        · obtain ⟨mk, hmk, hc, hl⟩ := hex
          exact ⟨mk, List.mem_append.mpr (Or.inl hmk), hc, hl⟩
        · intro mk hmk hc
          rcases List.mem_append.mp hmk with h1 | h1
          · exact hmin mk h1 hc
          · simp only [List.mem_singleton] at h1
            subst h1
            exact absurd hc hcov

theorem vcFold_inv (n : Nat) (edges : List Edge) :
    ∀ (l2 l1 : List Nat) (b : Option Nat),
      ((∀ m, b = some m →
          (∃ mk ∈ l1, coversB edges (selOfMask n mk) = true ∧
            (selOfMask n mk).length = m) ∧
          ∀ mk ∈ l1, coversB edges (selOfMask n mk) = true →
            m ≤ (selOfMask n mk).length) ∧
        (b = none → ∀ mk ∈ l1, coversB edges (selOfMask n mk) = false)) →
      (∀ m, l2.foldl (vcStep n edges) b = some m →
          (∃ mk ∈ l1 ++ l2, coversB edges (selOfMask n mk) = true ∧
            (selOfMask n mk).length = m) ∧
          ∀ mk ∈ l1 ++ l2, coversB edges (selOfMask n mk) = true →
            m ≤ (selOfMask n mk).length) ∧
        (l2.foldl (vcStep n edges) b = none →
          ∀ mk ∈ l1 ++ l2, coversB edges (selOfMask n mk) = false) := by
  intro l2
  induction l2 with
  | nil =>
    intro l1 b h
    simpa using h
  | cons mk0 rest ih =>
    intro l1 b h
    have hstep := vcStep_inv n edges l1 b mk0 h
    have := ih (l1 ++ [mk0]) (vcStep n edges b mk0) hstep
    simpa [List.append_assoc] using this

/-- The full content of `findMinVertexCover`'s correctness, shared by the
claims: on any input whose edges stay below `n`, the solver returns
`some m` where `m` is the size of a minimum covering subset of
`{0, …, n-1}` — in particular the size-pruning `continue` never hides a
smaller feasible cover. -/
theorem findMinVertexCover_spec (n : Nat) (edges : List Edge)
    (he : ∀ e ∈ edges, e.u < n ∧ e.v < n) :
    ∃ m, findMinVertexCover n edges = some m ∧
      (∃ S : Finset Nat, (∀ i ∈ S, i < n) ∧ CoversSpec edges S ∧
        S.card = m) ∧
      ∀ S : Finset Nat, (∀ i ∈ S, i < n) → CoversSpec edges S →
        m ≤ S.card := by
  have hbase :
      (∀ m, (none : Option Nat) = some m →
          (∃ mk ∈ ([] : List Nat), coversB edges (selOfMask n mk) = true ∧
            (selOfMask n mk).length = m) ∧
          ∀ mk ∈ ([] : List Nat), coversB edges (selOfMask n mk) = true →
            m ≤ (selOfMask n mk).length) ∧
        ((none : Option Nat) = none →
          ∀ mk ∈ ([] : List Nat), coversB edges (selOfMask n mk) = false) := by
    constructor
    · intro m hm; exact absurd hm (by simp)
    · intro _ mk hmk; exact absurd hmk (List.not_mem_nil mk)
  have hinv := vcFold_inv n edges (List.range (2 ^ n)) [] none hbase
  rw [List.nil_append] at hinv
  obtain ⟨hsome, hnone⟩ := hinv
  have hfull : coversB edges (selOfMask n (2 ^ n - 1)) = true := by
    rw [coversB_iff_coversSpec]
    intro e hee
    refine Or.inl ?_
    rw [List.mem_toFinset, selOfMask_mem]
    refine ⟨(he e hee).1, ?_⟩
    rw [Nat.testBit_two_pow_sub_one]
    exact decide_eq_true (he e hee).1
  have hfmem : 2 ^ n - 1 ∈ List.range (2 ^ n) := by
    rw [List.mem_range]
    have := Nat.one_le_two_pow (n := n)
    omega
  cases hres : findMinVertexCover n edges with
  | none =>
    have := hnone hres (2 ^ n - 1) hfmem
    rw [this] at hfull
    exact absurd hfull (by simp)
  | some m =>
    refine ⟨m, rfl, ?_, ?_⟩
    · obtain ⟨hex, _⟩ := hsome m hres
      obtain ⟨mk, _, hc, hl⟩ := hex
      refine ⟨(selOfMask n mk).toFinset, ?_,
        (coversB_iff_coversSpec edges _).mp hc, ?_⟩
      · intro i hi
        rw [List.mem_toFinset] at hi
        exact ((selOfMask_mem n mk i).mp hi).1
      · rw [List.toFinset_card_of_nodup (selOfMask_nodup n mk), hl]
    · intro S hSn hSc
      obtain ⟨_, hmin⟩ := hsome m hres
      have hmaskmem : maskOfSet S n ∈ List.range (2 ^ n) := by
        rw [List.mem_range]
        exact maskOfSet_lt S n
      have hcov : coversB edges (selOfMask n (maskOfSet S n)) = true := by
        rw [coversB_iff_coversSpec, selOfMask_maskOfSet n S hSn]
        exact hSc
      have := hmin _ hmaskmem hcov
      rwa [selOfMask_maskOfSet_length n S hSn] at this

/-- C1: for every node count `n ≥ 1` and edge list with endpoints below
`n`, `findMinVertexCover(n, edges)` returns the minimum cardinality of a
covering subset `S` of `{0, …, n-1}`; the size-pruning skip never causes
a smaller feasible cover to be missed. -/
theorem findMinVertexCover_computes_minimum (n : Nat) (edges : List Edge)
    (_hn : 1 ≤ n) (he : ∀ e ∈ edges, e.u < n ∧ e.v < n) :
    ∃ m, findMinVertexCover n edges = some m ∧
      (∃ S : Finset Nat, (∀ i ∈ S, i < n) ∧ CoversSpec edges S ∧
        S.card = m) ∧
      ∀ S : Finset Nat, (∀ i ∈ S, i < n) → CoversSpec edges S →
        m ≤ S.card :=
  findMinVertexCover_spec n edges he

/-- Witness for C1 on the path graph `0 – 1 – 2` (`n = 3`): the minimum
cover is `{1}` of size 1. -/
theorem findMinVertexCover_computes_minimum_concrete :
    (1 ≤ 3 ∧
      ∃ m, findMinVertexCover 3 [⟨0, 1⟩, ⟨1, 2⟩] = some m ∧
        (∃ S : Finset Nat, (∀ i ∈ S, i < 3) ∧
          CoversSpec [⟨0, 1⟩, ⟨1, 2⟩] S ∧ S.card = m) ∧
        ∀ S : Finset Nat, (∀ i ∈ S, i < 3) →
          CoversSpec [⟨0, 1⟩, ⟨1, 2⟩] S → m ≤ S.card) ∧
      findMinVertexCover 3 [⟨0, 1⟩, ⟨1, 2⟩] = some 1 :=
  ⟨⟨by omega,
      findMinVertexCover_computes_minimum 3 [⟨0, 1⟩, ⟨1, 2⟩] (by omega)
        (by decide)⟩,
    by decide⟩

theorem candidateEdges_bound (a : VCAttempt) (ha : 2 ≤ a.n) :
    ∀ e ∈ a.candidateEdges, e.u < a.n ∧ e.v < a.n := by
  intro e he
  rcases ensureEdge_mem _ e he with rfl | hmem
  · exact ⟨by dsimp only; omega, by dsimp only; omega⟩
  · obtain ⟨h1, h2⟩ := randEdges_mem a.coin a.n e hmem
    exact ⟨by omega, h2⟩

/-- C9: `findMinVertexCover` always returns a non-null number on inputs
whose edges stay below `n` (the full vertex set is a cover), so the
vertex-cover `generateGraph` retry condition `k !== null` succeeds on
its first attempt and the hardcoded two-node fallback is unreachable. -/
theorem findMinVertexCover_total_no_fallback
    (n : Nat) (edges : List Edge) (_hn : 1 ≤ n)
    (he : ∀ e ∈ edges, e.u < n ∧ e.v < n)
    (a : VCAttempt) (rest : List VCAttempt) (ha : 2 ≤ a.n) :
    (findMinVertexCover n edges).isSome = true ∧
      ∃ k, findMinVertexCover a.n a.candidateEdges = some k ∧
        generateGraphVC (a :: rest) =
          ⟨List.range a.n, a.candidateEdges, k⟩ := by
  constructor
  · obtain ⟨m, hm, -, -⟩ := findMinVertexCover_spec n edges he
    rw [hm]
    rfl
  · obtain ⟨k, hk, -, -⟩ :=
      findMinVertexCover_spec a.n a.candidateEdges (candidateEdges_bound a ha)
    refine ⟨k, hk, ?_⟩
    unfold generateGraphVC
    rw [hk]

/-- Witness for C9: the path graph for the direct part, and an attempt
with `n = 2` and no coin firing (forced single edge) for the generator
part. -/
theorem findMinVertexCover_total_no_fallback_concrete :
    (findMinVertexCover 3 [⟨0, 1⟩, ⟨1, 2⟩]).isSome = true ∧
      ∃ k, findMinVertexCover (VCAttempt.mk 2 (fun _ _ => false)).n
            (VCAttempt.mk 2 (fun _ _ => false)).candidateEdges = some k ∧
        generateGraphVC [VCAttempt.mk 2 (fun _ _ => false)] =
          ⟨List.range (VCAttempt.mk 2 (fun _ _ => false)).n,
            (VCAttempt.mk 2 (fun _ _ => false)).candidateEdges, k⟩ :=
  findMinVertexCover_total_no_fallback 3 [⟨0, 1⟩, ⟨1, 2⟩] (by omega)
    (by decide) (VCAttempt.mk 2 (fun _ _ => false)) [] (by decide)

/-! ## C6: `find3Coloring` is incomplete -/

/-- C6 failing input: the triangle `{0,1,2}` with the pendant vertex `3`
attached to `2` admits the proper 3-coloring `[0, 1, 2, 0]`, yet
`find3Coloring(4, edges, 3)` returns `null`: the candidate check
`adj[node].every(nei => colors[nei] !== c)` also reads the (still zero, or
stale) colors of not-yet-assigned neighbors, so node 2 — adjacent to the
unassigned node 3 holding color 0 — can never take any of the three
colors once `0` and `1` occupy two of them. -/
theorem find3Coloring_misses_colorable_instance :
    find3Coloring 4 [⟨0, 1⟩, ⟨0, 2⟩, ⟨1, 2⟩, ⟨2, 3⟩] 3 = none ∧
      ProperColoring [⟨0, 1⟩, ⟨0, 2⟩, ⟨1, 2⟩, ⟨2, 3⟩] [0, 1, 2, 0] ∧
      ([0, 1, 2, 0] : List Nat).length = 4 ∧
      ∀ c ∈ ([0, 1, 2, 0] : List Nat), c < 3 := by
  decide

/-! ## C7: `findHamiltonianCycle` is sound and complete -/

theorem getD_set_self_bool (b : Bool) :
    ∀ (l : List Bool) (i : Nat), i < l.length →
      (l.set i b).getD i false = b := by
  intro l
  induction l with
  | nil => intro i h; simp at h
  | cons x xs ih =>
    intro i h
    cases i with
    | zero => simp
    | succ j =>
      simp only [List.set_cons_succ, List.getD_cons_succ]
      exact ih j (by simpa using h)

theorem getD_set_ne_bool (b : Bool) :
    ∀ (l : List Bool) (i j : Nat), i ≠ j →
      (l.set i b).getD j false = l.getD j false := by
  intro l
  induction l with
  | nil => intro i j _; simp
  | cons x xs ih =>
    intro i j hne
    cases i with
    | zero =>
      cases j with
      | zero => exact absurd rfl hne
      | succ j' => simp
    | succ i' =>
      cases j with
      | zero => simp
      | succ j' =>
        simp only [List.set_cons_succ, List.getD_cons_succ]
        exact ih i' j' (by omega)

theorem set_false_of_getD_false :
    ∀ (l : List Bool) (i : Nat), l.getD i false = false →
      l.set i false = l := by
  intro l
  induction l with
  | nil => intro i _; simp
  | cons x xs ih =>
    intro i h
    cases i with
    | zero => simp only [List.getD_cons_zero] at h; simp [h]
    | succ j =>
      simp only [List.getD_cons_succ] at h
      simp only [List.set_cons_succ]
      rw [ih j h]

theorem addOnce_length (adj : List (List Nat)) (i x : Nat) :
    (addOnce adj i x).length = adj.length := by
  unfold addOnce
  dsimp only
  split
  · rfl
  · exact List.length_set adj i _

theorem addOnce_getD (adj : List (List Nat)) (i x : Nat) (hi : i < adj.length) :
    ∀ j y, (y ∈ (addOnce adj i x).getD j [] ↔
      y ∈ adj.getD j [] ∨ (j = i ∧ y = x)) := by
  intro j y
  unfold addOnce
  dsimp only
  split
  · rename_i hmem
    constructor
    · exact fun h => Or.inl h
    · rintro (h | ⟨rfl, rfl⟩)
      · exact h
      · simpa using hmem
  · by_cases hji : j = i
    · subst hji
      rw [List.getD_eq_getElem?_getD, List.getElem?_set_self (by omega),
        Option.getD_some]
      constructor
      · intro h
        rcases List.mem_append.mp h with h | h
        · exact Or.inl h
        · simp at h
          exact Or.inr ⟨rfl, h⟩
      · rintro (h | ⟨-, rfl⟩)
        · exact List.mem_append.mpr (Or.inl h)
        · exact List.mem_append.mpr (Or.inr (by simp))
    · rw [List.getD_eq_getElem?_getD, List.getElem?_set_ne (by omega),
        ← List.getD_eq_getElem?_getD]
      constructor
      · exact fun h => Or.inl h
      · rintro (h | ⟨rfl, -⟩)
        · exact h
        · exact absurd rfl hji

theorem getD_replicate_nil (n j : Nat) :
    (List.replicate n ([] : List Nat)).getD j [] = [] := by
  induction n generalizing j with
  | zero => simp
  | succ m ih =>
    cases j with
    | zero => simp [List.replicate]
    | succ j' =>
      simp only [List.replicate, List.getD_cons_succ]
      exact ih j'

theorem isAdj_append (es1 es2 : List Edge) (a b : Nat) :
    isAdj (es1 ++ es2) a b =
      (isAdj es1 a b || isAdj es2 a b) := by
  unfold isAdj
  exact List.any_append

theorem buildAdjSet_inv (n : Nat) :
    ∀ (es : List Edge) (adj0 : List (List Nat)) (pre : List Edge),
      (∀ e ∈ es, e.u < n ∧ e.v < n) →
      adj0.length = n →
      (∀ j y, y ∈ adj0.getD j [] ↔ isAdj pre j y = true) →
      (es.foldl (fun adj e => addOnce (addOnce adj e.u e.v) e.v e.u)
          adj0).length = n ∧
        ∀ j y,
          y ∈ (es.foldl (fun adj e => addOnce (addOnce adj e.u e.v) e.v e.u)
              adj0).getD j [] ↔
            isAdj (pre ++ es) j y = true := by
  intro es
  induction es with
  | nil =>
    intro adj0 pre _ hlen hmem
    rw [List.foldl_nil, List.append_nil]
    exact ⟨hlen, hmem⟩
  | cons e rest ih =>
    intro adj0 pre hes hlen hmem
    have heu : e.u < n := (hes e (List.mem_cons_self e rest)).1
    have hev : e.v < n := (hes e (List.mem_cons_self e rest)).2
    have hlen1 : (addOnce adj0 e.u e.v).length = n := by
      rw [addOnce_length, hlen]
    have hlen2 : (addOnce (addOnce adj0 e.u e.v) e.v e.u).length = n := by
      rw [addOnce_length, hlen1]
    have hmem2 : ∀ j y,
        y ∈ (addOnce (addOnce adj0 e.u e.v) e.v e.u).getD j [] ↔
          isAdj (pre ++ [e]) j y = true := by
      intro j y
      rw [addOnce_getD _ _ _ (by omega),
        addOnce_getD _ _ _ (by omega),
        hmem j y, isAdj_append]
      have hsingle : isAdj [e] j y =
          ((e.u == j && e.v == y) || (e.u == y && e.v == j)) := by
        unfold isAdj
        simp
      rw [Bool.or_eq_true, hsingle]
      constructor
      · rintro ((h | ⟨rfl, rfl⟩) | ⟨rfl, rfl⟩)
        · exact Or.inl h
        · refine Or.inr ?_
          rw [Bool.or_eq_true]
          exact Or.inl (by simp)
        · refine Or.inr ?_
          rw [Bool.or_eq_true]
          exact Or.inr (by simp)
      · rintro (h | h)
        · exact Or.inl (Or.inl h)
        · rw [Bool.or_eq_true] at h
          rcases h with h | h
          · have h1 := (Bool.and_eq_true _ _).mp h
            have hu : e.u = j := by simpa using h1.1
            have hv : e.v = y := by simpa using h1.2
            exact Or.inl (Or.inr ⟨hu.symm, hv.symm⟩)
          · have h1 := (Bool.and_eq_true _ _).mp h
            have hu : e.u = y := by simpa using h1.1
            have hv : e.v = j := by simpa using h1.2
            exact Or.inr ⟨hv.symm, hu.symm⟩
    have := ih (addOnce (addOnce adj0 e.u e.v) e.v e.u) (pre ++ [e])
      (fun e' he' => hes e' (List.mem_cons_of_mem e he')) hlen2 hmem2
    simpa [List.append_assoc] using this

theorem buildAdjSet_spec (n : Nat) (edges : List Edge)
    (he : ∀ e ∈ edges, e.u < n ∧ e.v < n) :
    (buildAdjSet n edges).length = n ∧
      ∀ j y, y ∈ (buildAdjSet n edges).getD j [] ↔ isAdj edges j y = true := by
  have := buildAdjSet_inv n edges (List.replicate n []) [] he
    (by simp)
    (by
      intro j y
      rw [getD_replicate_nil]
      simp [isAdj])
  simpa using this

theorem isAdj_lt (edges : List Edge) (n : Nat)
    (he : ∀ e ∈ edges, e.u < n ∧ e.v < n) (a b : Nat)
    (h : isAdj edges a b = true) : a < n ∧ b < n := by
  unfold isAdj at h
  rw [List.any_eq_true] at h
  obtain ⟨e, hmem, hcond⟩ := h
  rcases (Bool.or_eq_true _ _).mp hcond with h1 | h1
  · have h2 := (Bool.and_eq_true _ _).mp h1
    have hu : e.u = a := by simpa using h2.1
    have hv : e.v = b := by simpa using h2.2
    have := he e hmem
    omega
  · have h2 := (Bool.and_eq_true _ _).mp h1
    have hu : e.u = b := by simpa using h2.1
    have hv : e.v = a := by simpa using h2.2
    have := he e hmem
    omega

theorem buildAdjSet_wf (n : Nat) (edges : List Edge)
    (he : ∀ e ∈ edges, e.u < n ∧ e.v < n) :
    AdjWF n (buildAdjSet n edges) := by
  obtain ⟨hlen, hmem⟩ := buildAdjSet_spec n edges he
  refine ⟨hlen, ?_⟩
  intro l hl v hv
  obtain ⟨j, hj, rfl⟩ := List.mem_iff_getElem.mp hl
  have hgd : (buildAdjSet n edges).getD j [] = (buildAdjSet n edges)[j] := by
    rw [List.getD_eq_getElem?_getD, List.getElem?_eq_getElem hj,
      Option.getD_some]
  have : v ∈ (buildAdjSet n edges).getD j [] := by rw [hgd]; exact hv
  exact (isAdj_lt edges n he j v ((hmem j v).mp this)).2

theorem hc_fold_fixed (step : Bool × List Nat × List Bool → Nat →
      Bool × List Nat × List Bool)
    (hstep : ∀ r v, r.1 = true → step r v = r) :
    ∀ (l : List Nat) (r), r.1 = true → l.foldl step r = r := by
  intro l
  induction l with
  | nil => intro r _; rfl
  | cons v rest ih =>
    intro r hr
    rw [List.foldl_cons, hstep r v hr]
    exact ih r hr

theorem getD_zero_concat (l : List Nat) (a : Nat) (l2 : List Nat) :
    ((l ++ [a]) ++ l2).getD 0 0 = (l ++ [a]).getD 0 0 := by
  cases l <;> simp

theorem adj_getD_sub (n : Nat) (adj : List (List Nat)) (hadj : AdjWF n adj)
    (u : Nat) : ∀ v ∈ adj.getD u [], v < n := by
  intro v hv
  by_cases hu : u < adj.length
  · have hgd : adj.getD u [] = adj[u] := by
      rw [List.getD_eq_getElem?_getD, List.getElem?_eq_getElem hu,
        Option.getD_some]
    rw [hgd] at hv
    exact hadj.2 adj[u] (List.getElem_mem hu) v hv
  · have hgd : adj.getD u [] = [] := by
      rw [List.getD_eq_getElem?_getD, List.getElem?_eq_none (by omega)]
      rfl
    rw [hgd] at hv
    exact absurd hv (List.not_mem_nil v)

theorem dfsHC_spec (n : Nat) (adj : List (List Nat)) (hadj : AdjWF n adj) :
    ∀ (fuel u : Nat) (path : List Nat) (used : List Bool),
      used.length = n → u < n → used.getD u false = false →
      (((dfsHC adj fuel u path used).1 = false →
          dfsHC adj fuel u path used = (false, path, used) ∧
          ¬ HCExt adj used ((path ++ [u]).getD 0 0) u fuel) ∧
        ((dfsHC adj fuel u path used).1 = true →
          ∃ ext, ext.length = fuel ∧
            List.Chain' (fun a b => b ∈ adj.getD a []) (u :: ext) ∧
            (∀ x ∈ ext, used.getD x false = false ∧ x ≠ u) ∧
            ext.Nodup ∧
            (path ++ [u]).getD 0 0 ∈
              adj.getD ((u :: ext).getLast?.getD 0) [] ∧
            (dfsHC adj fuel u path used).2.1 = path ++ u :: ext)) := by
  intro fuel
  induction fuel with
  | zero =>
    intro u path used hlen hu hufree
    by_cases hcont :
        (adj.getD u []).contains ((path ++ [u]).getD 0 0) = true
    · have hres : dfsHC adj 0 u path used =
          (true, path ++ [u], used.set u true) := by
        unfold dfsHC
        dsimp only
        rw [if_pos hcont]
      constructor
      · intro hfalse
        rw [hres] at hfalse
        exact absurd hfalse (by simp)
      · intro _
        refine ⟨[], rfl, List.chain'_singleton u, by simp, List.nodup_nil,
          ?_, by rw [hres]⟩
        simpa using hcont
    · have hcont' : (adj.getD u []).contains ((path ++ [u]).getD 0 0) =
          false := Bool.eq_false_iff.mpr hcont
      have hres : dfsHC adj 0 u path used =
          (false, (path ++ [u]).dropLast, (used.set u true).set u false) := by
        unfold dfsHC
        dsimp only
        rw [if_neg hcont]
      constructor
      · intro _
        constructor
        · rw [hres, List.dropLast_concat, List.set_set,
            set_false_of_getD_false used u hufree]
        · rintro ⟨ext, hextlen, _, _, _, hlast⟩
          rw [List.length_eq_zero] at hextlen
          subst hextlen
          simp only [List.getLast?_singleton, Option.getD_some] at hlast
          have : (adj.getD u []).contains ((path ++ [u]).getD 0 0) = true := by
            simpa using hlast
          rw [hcont'] at this
          exact absurd this (by simp)
      · intro htrue
        rw [hres] at htrue
        exact absurd htrue (by simp)
  | succ fuel ih =>
    intro u path used hlen hu hufree
    set p1 := path ++ [u] with hp1
    set us1 := used.set u true with hus1
    have hus1len : us1.length = n := by rw [hus1, List.length_set, hlen]
    have hus1u : us1.getD u false = true := by
      rw [hus1]
      exact getD_set_self_bool true used u (by omega)
    have hus1ne : ∀ v, v ≠ u → us1.getD v false = used.getD v false := by
      intro v hv
      rw [hus1]
      exact getD_set_ne_bool true used u v (fun h => hv h.symm)
    have hfree_of_us1 : ∀ v, us1.getD v false = false →
        v ≠ u ∧ used.getD v false = false := by
      intro v hfree
      by_cases hvu : v = u
      · subst hvu
        rw [hus1u] at hfree
        exact absurd hfree (by simp)
      · exact ⟨hvu, by rw [← hus1ne v hvu]; exact hfree⟩
    have hstep_fixed : ∀ (r : Bool × List Nat × List Bool) (v : Nat),
        r.1 = true →
        (if r.1 then r
          else if r.2.2.getD v false then r
          else dfsHC adj fuel v r.2.1 r.2.2) = r := by
      intro r v hr
      rw [if_pos hr]
    have hfold : ∀ l : List Nat, (∀ v ∈ l, v < n) →
        (l.foldl
            (fun r v =>
              if r.1 then r
              else if r.2.2.getD v false then r
              else dfsHC adj fuel v r.2.1 r.2.2)
            (false, p1, us1) = (false, p1, us1) ∧
          ∀ v ∈ l, us1.getD v false = false →
            (dfsHC adj fuel v p1 us1).1 = false) ∨
        ((l.foldl
            (fun r v =>
              if r.1 then r
              else if r.2.2.getD v false then r
              else dfsHC adj fuel v r.2.1 r.2.2)
            (false, p1, us1)).1 = true ∧
          ∃ v ∈ l, us1.getD v false = false ∧
            l.foldl
              (fun r v =>
                if r.1 then r
                else if r.2.2.getD v false then r
                else dfsHC adj fuel v r.2.1 r.2.2)
              (false, p1, us1) = dfsHC adj fuel v p1 us1 ∧
            (dfsHC adj fuel v p1 us1).1 = true) := by
      intro l
      induction l with
      | nil =>
        intro _
        exact Or.inl ⟨rfl, by simp⟩
      | cons v rest ihl =>
        intro hlt
        have hvn : v < n := hlt v (List.mem_cons_self v rest)
        have hrest : ∀ w ∈ rest, w < n :=
          fun w hw => hlt w (List.mem_cons_of_mem v hw)
        rw [List.foldl_cons]
        by_cases hused : us1.getD v false = true
        · have hstep1 :
              (if (false : Bool) then ((false : Bool), p1, us1)
                else if us1.getD v false then ((false : Bool), p1, us1)
                else dfsHC adj fuel v p1 us1) = (false, p1, us1) := by
            rw [if_neg (by simp), if_pos hused]
          dsimp only at hstep1 ⊢
          rw [hstep1]
          rcases ihl hrest with ⟨heq, hall⟩ | ⟨htrue, v', hv', hrestex⟩
          · refine Or.inl ⟨heq, ?_⟩
            intro w hw hwfree
            rcases List.mem_cons.mp hw with rfl | hw'
            · rw [hused] at hwfree
              exact absurd hwfree (by simp)
            · exact hall w hw' hwfree
          · exact Or.inr ⟨htrue, v', List.mem_cons_of_mem v hv', hrestex⟩
        · have hvfree : us1.getD v false = false := Bool.eq_false_iff.mpr hused
          obtain ⟨hvne, hvused⟩ := hfree_of_us1 v hvfree
          have hchild := ih v p1 us1 hus1len hvn hvfree
          have hstep1 :
              (if (false : Bool) then ((false : Bool), p1, us1)
                else if us1.getD v false then ((false : Bool), p1, us1)
                else dfsHC adj fuel v p1 us1) = dfsHC adj fuel v p1 us1 := by
            rw [if_neg (by simp), if_neg (by rw [hvfree]; simp)]
          dsimp only at hstep1 ⊢
          rw [hstep1]
          cases hr1 : (dfsHC adj fuel v p1 us1).1 with
          | false =>
            obtain ⟨hrestore, -⟩ := hchild.1 hr1
            rw [hrestore]
            rcases ihl hrest with ⟨heq, hall⟩ | ⟨htrue, v', hv', hrestex⟩
            · refine Or.inl ⟨heq, ?_⟩
              intro w hw hwfree
              rcases List.mem_cons.mp hw with rfl | hw'
              · exact hr1
              · exact hall w hw' hwfree
            · exact Or.inr ⟨htrue, v', List.mem_cons_of_mem v hv', hrestex⟩
          | true =>
            have hrest_fixed := hc_fold_fixed _ hstep_fixed rest
              (dfsHC adj fuel v p1 us1) hr1
            rw [hrest_fixed]
            exact Or.inr ⟨hr1, v, List.mem_cons_self v rest, hvfree,
              rfl, hr1⟩
    have hnbrs : ∀ v ∈ adj.getD u [], v < n := adj_getD_sub n adj hadj u
    have hres : dfsHC adj (fuel + 1) u path used =
        (let r :=
          (adj.getD u []).foldl
            (fun r v =>
              if r.1 then r
              else if r.2.2.getD v false then r
              else dfsHC adj fuel v r.2.1 r.2.2)
            (false, p1, us1)
        if r.1 then r else (false, r.2.1.dropLast, r.2.2.set u false)) := by
      rw [hp1, hus1]
      rfl
    rcases hfold (adj.getD u []) hnbrs with ⟨heq, hall⟩ |
      ⟨htrue, v, hvmem, hvfree, hfeq, hv1⟩
    · have hresf : dfsHC adj (fuel + 1) u path used =
          (false, p1.dropLast, us1.set u false) := by
        rw [hres]
        dsimp only
        rw [heq]
        rfl
      have hrestored : dfsHC adj (fuel + 1) u path used =
          (false, path, used) := by
        rw [hresf, hp1, List.dropLast_concat, hus1, List.set_set,
          set_false_of_getD_false used u hufree]
      constructor
      · intro _
        refine ⟨hrestored, ?_⟩
        rintro ⟨ext, hextlen, hchain, hunused, hnodup, hlast⟩
        cases ext with
        | nil => simp at hextlen
        | cons v ext' =>
          have hrel : v ∈ adj.getD u [] :=
            (List.chain'_cons.mp hchain).1
          have hvne : v ≠ u := (hunused v (List.mem_cons_self v ext')).2
          have hvused : used.getD v false = false :=
            (hunused v (List.mem_cons_self v ext')).1
          have hvfree : us1.getD v false = false := by
            rw [hus1ne v hvne]
            exact hvused
          have hchildfail := hall v hrel hvfree
          have hvn : v < n := hnbrs v hrel
          obtain ⟨-, hnoext⟩ :=
            (ih v p1 us1 hus1len hvn hvfree).1 hchildfail
          refine hnoext ⟨ext', by simpa using hextlen, ?_, ?_, ?_, ?_⟩
          · exact (List.chain'_cons.mp hchain).2
          · intro x hx
            have hxprop := hunused x (List.mem_cons_of_mem v hx)
            refine ⟨?_, ?_⟩
            · rw [hus1ne x hxprop.2]
              exact hxprop.1
            · intro hxv
              subst hxv
              exact (List.nodup_cons.mp hnodup).1 hx
          · exact (List.nodup_cons.mp hnodup).2
          · rw [hp1, getD_zero_concat]
            rw [List.getLast?_cons_cons] at hlast
            exact hlast
      · intro htrue'
        rw [hrestored] at htrue'
        exact absurd htrue' (by simp)
    · have hresr : dfsHC adj (fuel + 1) u path used =
          dfsHC adj fuel v p1 us1 := by
        rw [hres]
        dsimp only
        rw [hfeq, if_pos hv1]
      obtain ⟨hvne, hvused⟩ := hfree_of_us1 v hvfree
      have hvn : v < n := hnbrs v hvmem
      obtain ⟨ext', hextlen, hchain, hunused, hnodup, hlast, hpath⟩ :=
        (ih v p1 us1 hus1len hvn hvfree).2 hv1
      constructor
      · intro hfalse
        rw [hresr] at hfalse
        rw [hfalse] at hv1
        exact absurd hv1 (by simp)
      · intro _
        refine ⟨v :: ext', by simpa using hextlen, ?_, ?_, ?_, ?_, ?_⟩
        · exact List.chain'_cons.mpr ⟨hvmem, hchain⟩
        · intro x hx
          rcases List.mem_cons.mp hx with rfl | hx'
          · exact ⟨hvused, hvne⟩
          · obtain ⟨hxfree, hxv⟩ := hunused x hx'
            obtain ⟨hxu, hxused⟩ := hfree_of_us1 x hxfree
            exact ⟨hxused, hxu⟩
        · refine List.nodup_cons.mpr ⟨?_, hnodup⟩
          intro hvin
          exact (hunused v hvin).2 rfl
        · rw [List.getLast?_cons_cons]
          rw [hp1, getD_zero_concat] at hlast
          exact hlast
        · rw [hresr, hpath, hp1]
          simp

theorem perm_range_of_nodup (l : List Nat) (n : Nat) (hlen : l.length = n)
    (hnd : l.Nodup) (hlt : ∀ x ∈ l, x < n) : List.Perm l (List.range n) := by
  have hsub : l ⊆ List.range n := by
    intro x hx
    rw [List.mem_range]
    exact hlt x hx
  have hsp := List.subperm_of_subset hnd hsub
  exact hsp.perm_of_length_le (by rw [hlen, List.length_range])

theorem chain'_mem_lt (n : Nat) (adj : List (List Nat)) (hadj : AdjWF n adj) :
    ∀ (l : List Nat) (a : Nat),
      List.Chain' (fun x y => y ∈ adj.getD x []) (a :: l) →
      ∀ x ∈ l, x < n := by
  intro l
  induction l with
  | nil => intro a _ x hx; exact absurd hx (List.not_mem_nil x)
  | cons b rest ih =>
    intro a hchain x hx
    have h1 := List.chain'_cons.mp hchain
    rcases List.mem_cons.mp hx with rfl | hx'
    · exact adj_getD_sub n adj hadj a x h1.1
    · exact ih b h1.2 x hx'

theorem getD_replicate_false_all (n i : Nat) :
    (List.replicate n false).getD i false = false := getD_replicate_false n i

theorem hcStarts_spec (n : Nat) (adj : List (List Nat)) (hadj : AdjWF n adj) :
    ∀ starts : List Nat, (∀ s ∈ starts, s < n) →
      (∀ c, hcStarts adj n starts [] (List.replicate n false) = some c →
        ∃ s ∈ starts, ∃ ext : List Nat, c = s :: ext ∧
          ext.length = n - 1 ∧
          List.Chain' (fun a b => b ∈ adj.getD a []) (s :: ext) ∧
          (∀ x ∈ ext, x ≠ s) ∧ ext.Nodup ∧
          s ∈ adj.getD ((s :: ext).getLast?.getD 0) []) ∧
      (hcStarts adj n starts [] (List.replicate n false) = none →
        ∀ s ∈ starts,
          ¬ HCExt adj (List.replicate n false) s s (n - 1)) := by
  intro starts
  induction starts with
  | nil =>
    intro _
    constructor
    · intro c hc
      exact absurd hc (by simp [hcStarts])
    · intro _ s hs
      exact absurd hs (List.not_mem_nil s)
  | cons s rest ih =>
    intro hlt
    have hsn : s < n := hlt s (List.mem_cons_self s rest)
    have hrestlt : ∀ w ∈ rest, w < n :=
      fun w hw => hlt w (List.mem_cons_of_mem s hw)
    have hspec := dfsHC_spec n adj hadj (n - 1) s [] (List.replicate n false)
      (List.length_replicate n false) hsn (getD_replicate_false_all n s)
    cases hr1 : (dfsHC adj (n - 1) s [] (List.replicate n false)).1 with
    | true =>
      obtain ⟨ext, hextlen, hchain, hunused, hnodup, hlast, hpath⟩ :=
        hspec.2 hr1
      have hres : hcStarts adj n (s :: rest) [] (List.replicate n false) =
          some (dfsHC adj (n - 1) s [] (List.replicate n false)).2.1 := by
        unfold hcStarts
        dsimp only
        rw [if_pos hr1]
      constructor
      · intro c hc
        rw [hres] at hc
        injection hc with hc
        refine ⟨s, List.mem_cons_self s rest, ext, ?_, hextlen, hchain,
          fun x hx => (hunused x hx).2, hnodup, ?_⟩
        · rw [← hc, hpath]
          rfl
        · simpa using hlast
      · intro hnone
        rw [hres] at hnone
        exact absurd hnone (by simp)
    | false =>
      obtain ⟨hrestore, hnoext⟩ := hspec.1 hr1
      have hres : hcStarts adj n (s :: rest) [] (List.replicate n false) =
          hcStarts adj n rest [] (List.replicate n false) := by
        conv_lhs => rw [hcStarts]
        rw [hrestore]
        rfl
      obtain ⟨ihsome, ihnone⟩ := ih hrestlt
      constructor
      · intro c hc
        rw [hres] at hc
        obtain ⟨s', hs', hrest⟩ := ihsome c hc
        exact ⟨s', List.mem_cons_of_mem s hs', hrest⟩
      · intro hnone w hw
        rcases List.mem_cons.mp hw with rfl | hw'
        · have : ((([] : List Nat) ++ [w]).getD 0 0) = w := by simp
          rw [← this]
          exact hnoext
        · exact ihnone (by rw [← hres]; exact hnone) w hw'

/-- C7: `findHamiltonianCycle(n, edges)` (a total function in this
embedding — the JS version can only throw on out-of-range edge endpoints,
excluded by hypothesis) returns `null` exactly when the graph has no
Hamiltonian cycle, and otherwise an ordering of all `n` node ids, each
visited exactly once, consecutive nodes adjacent and the last adjacent to
the first. -/
theorem findHamiltonianCycle_sound_complete (n : Nat) (edges : List Edge)
    (he : ∀ e ∈ edges, e.u < n ∧ e.v < n) :
    (∀ c, findHamiltonianCycle n edges = some c → IsHamCycle n edges c) ∧
      (findHamiltonianCycle n edges = none →
        ∀ c, ¬ IsHamCycle n edges c) := by
  obtain ⟨hlen, hmem⟩ := buildAdjSet_spec n edges he
  have hadj : AdjWF n (buildAdjSet n edges) := buildAdjSet_wf n edges he
  have hstarts := hcStarts_spec n (buildAdjSet n edges) hadj
    (List.range n) (fun s hs => List.mem_range.mp hs)
  constructor
  · intro c hc
    obtain ⟨s, hs, ext, rfl, hextlen, hchain, hnots, hnodup, hlast⟩ :=
      hstarts.1 c hc
    have hsn : s < n := List.mem_range.mp hs
    have hn1 : 1 ≤ n := by omega
    have hextlt : ∀ x ∈ ext, x < n :=
      chain'_mem_lt n (buildAdjSet n edges) hadj ext s hchain
    refine ⟨?_, ?_, ?_⟩
    · refine perm_range_of_nodup (s :: ext) n ?_ ?_ ?_
      · simp only [List.length_cons, hextlen]
        omega
      · exact List.nodup_cons.mpr ⟨fun h => hnots s h rfl, hnodup⟩
      · intro x hx
        rcases List.mem_cons.mp hx with rfl | hx'
        · exact hsn
        · exact hextlt x hx'
    · refine List.Chain'.imp ?_ hchain
      intro a b hab
      exact (hmem a b).mp hab
    · have : s ∈ (buildAdjSet n edges).getD
          ((s :: ext).getLast?.getD 0) [] := hlast
      have h2 := (hmem _ s).mp this
      simpa using h2
  · intro hnone c hcyc
    obtain ⟨hperm, hchain, hclose⟩ := hcyc
    cases c with
    | nil =>
      have : (List.range n).length = 0 := by
        rw [← hperm.length_eq]
        rfl
      rw [List.length_range] at this
      subst this
      simp only [List.getLast?_nil, Option.getD_none, List.headD_nil] at hclose
      have := isAdj_lt edges 0 he 0 0 hclose
      omega
    | cons s ext =>
      have hsn : s < n := by
        have : s ∈ List.range n :=
          hperm.subset (List.mem_cons_self s ext)
        exact List.mem_range.mp this
      have hnodup : (s :: ext).Nodup :=
        hperm.nodup_iff.mpr (List.nodup_range n)
      have hextlen : ext.length = n - 1 := by
        have := hperm.length_eq
        rw [List.length_range] at this
        simp only [List.length_cons] at this
        omega
      refine hstarts.2 hnone s (List.mem_range.mpr hsn)
        ⟨ext, hextlen, ?_, ?_, ?_, ?_⟩
      · refine List.Chain'.imp ?_ hchain
        intro a b hab
        exact (hmem a b).mpr hab
      · intro x hx
        refine ⟨getD_replicate_false_all n x, ?_⟩
        intro hxs
        subst hxs
        exact (List.nodup_cons.mp hnodup).1 hx
      · exact (List.nodup_cons.mp hnodup).2
      · have : isAdj edges ((s :: ext).getLast?.getD 0) s = true := by
          simpa using hclose
        exact (hmem _ s).mpr this

/-- Witness for C7: the triangle (cycle exists) — and, since the theorem's
other branch is also universally quantified, the path graph on three
nodes, where the search returns `null`. -/
theorem findHamiltonianCycle_sound_complete_concrete :
    ((∀ c, findHamiltonianCycle 3 [⟨0, 1⟩, ⟨1, 2⟩, ⟨2, 0⟩] = some c →
        IsHamCycle 3 [⟨0, 1⟩, ⟨1, 2⟩, ⟨2, 0⟩] c) ∧
      (findHamiltonianCycle 3 [⟨0, 1⟩, ⟨1, 2⟩, ⟨2, 0⟩] = none →
        ∀ c, ¬ IsHamCycle 3 [⟨0, 1⟩, ⟨1, 2⟩, ⟨2, 0⟩] c)) ∧
      findHamiltonianCycle 3 [⟨0, 1⟩, ⟨1, 2⟩, ⟨2, 0⟩] = some [0, 1, 2] :=
  ⟨findHamiltonianCycle_sound_complete 3 [⟨0, 1⟩, ⟨1, 2⟩, ⟨2, 0⟩]
      (by decide),
    by decide⟩

/-! ## C3: TSP — optimal tour search and the exact-length win check -/

theorem getD_append_lt (p q : List Nat) :
    ∀ i, i < p.length → (p ++ q).getD i 0 = p.getD i 0 := by
  induction p with
  | nil => intro i h; simp at h
  | cons x xs ih =>
    intro i h
    cases i with
    | zero => simp
    | succ j =>
      simp only [List.cons_append, List.getD_cons_succ]
      exact ih j (by simpa using h)

theorem getD_append_len (p : List Nat) (x : Nat) :
    (p ++ [x]).getD p.length 0 = x := by
  induction p with
  | nil => simp
  | cons y ys ih =>
    simp only [List.cons_append, List.length_cons, List.getD_cons_succ]
    exact ih

theorem cycleLenAt_eq_zipWith (d : Nat → Nat → Nat) (l : List Nat) :
    cycleLenAt d l = (List.zipWith d l (l.rotate 1)).sum := by
  unfold cycleLenAt
  rw [foldl_add_eq
    (fun i => d (l.getD i 0) (l.getD ((i + 1) % l.length) 0))
    (List.range l.length) 0, Nat.zero_add]
  congr 1
  refine List.ext_getElem ?_ ?_
  · rw [List.length_map, List.length_range, List.length_zipWith,
      List.length_rotate, Nat.min_self]
  · intro i h1 h2
    rw [List.length_map, List.length_range] at h1
    have hmod : (i + 1) % l.length < l.length := Nat.mod_lt _ (by omega)
    rw [List.getElem_map, List.getElem_range, List.getElem_zipWith,
      List.getElem_rotate]
    rw [getD_eq_getElem_of_lt l i h1, getD_eq_getElem_of_lt l _ hmod]

theorem zipWith_rotate (f : Nat → Nat → Nat) (a b : List Nat) (k : Nat)
    (hab : a.length = b.length) :
    List.zipWith f (a.rotate k) (b.rotate k) =
      (List.zipWith f a b).rotate k := by
  refine List.ext_getElem ?_ ?_
  · rw [List.length_zipWith, List.length_rotate, List.length_rotate,
      List.length_rotate, List.length_zipWith]
  · intro i h1 h2
    rw [List.length_zipWith, List.length_rotate, List.length_rotate,
      hab, Nat.min_self] at h1
    rw [List.getElem_zipWith, List.getElem_rotate, List.getElem_rotate,
      List.getElem_rotate, List.getElem_zipWith]
    have hz : (List.zipWith f a b).length = a.length := by
      rw [List.length_zipWith, hab, Nat.min_self]
    simp only [hz, hab]

theorem cycleLenAt_rotate (d : Nat → Nat → Nat) (l : List Nat) (k : Nat) :
    cycleLenAt d (l.rotate k) = cycleLenAt d l := by
  rw [cycleLenAt_eq_zipWith, cycleLenAt_eq_zipWith]
  rw [List.rotate_rotate]
  have h1 : l.rotate (k + 1) = (l.rotate 1).rotate k := by
    rw [List.rotate_rotate, Nat.add_comm]
  rw [h1, zipWith_rotate d l (l.rotate 1) k (by rw [List.length_rotate])]
  exact ((List.zipWith d l (l.rotate 1)).rotate_perm k).sum_eq

/-- Closing a tour by repeating the start node does not change its cyclic
length, because the appended wrap-around step has distance
`d(start, start) = 0`. -/
theorem cycleLenAt_closed (d : Nat → Nat → Nat) (hd0 : ∀ x, d x x = 0)
    (p : List Nat) (hp : 1 ≤ p.length) :
    cycleLenAt d (p ++ [p.getD 0 0]) = cycleLenAt d p := by
  unfold cycleLenAt
  rw [foldl_add_eq _ _ 0, foldl_add_eq _ _ 0, Nat.zero_add, Nat.zero_add]
  have hlen : (p ++ [p.getD 0 0]).length = p.length + 1 := by simp
  rw [hlen, List.range_succ, List.map_append, List.sum_append]
  have hlast : (List.map
      (fun i => d ((p ++ [p.getD 0 0]).getD i 0)
        ((p ++ [p.getD 0 0]).getD ((i + 1) % (p.length + 1)) 0))
      [p.length]).sum = 0 := by
    simp only [List.map_cons, List.map_nil, List.sum_cons, List.sum_nil]
    rw [getD_append_len, Nat.mod_self]
    have h0 : (p ++ [p.getD 0 0]).getD 0 0 = p.getD 0 0 :=
      getD_append_lt p _ 0 (by omega)
    rw [h0, hd0]
    omega
  rw [hlast, Nat.add_zero]
  congr 1
  refine List.map_congr_left ?_
  intro i hi
  rw [List.mem_range] at hi
  have h1 : (p ++ [p.getD 0 0]).getD i 0 = p.getD i 0 :=
    getD_append_lt p _ i hi
  have h2 : (i + 1) % (p.length + 1) = i + 1 := Nat.mod_eq_of_lt (by omega)
  rw [h1, h2]
  by_cases hip : i + 1 < p.length
  · rw [getD_append_lt p _ (i + 1) hip, Nat.mod_eq_of_lt hip]
  · have hieq : i + 1 = p.length := by omega
    rw [hieq, getD_append_len, Nat.mod_self]

theorem range_eq_cons_drop (n : Nat) (hn : 1 ≤ n) :
    List.range n = 0 :: (List.range n).drop 1 := by
  cases n with
  | zero => omega
  | succ m =>
    rw [List.range_succ_eq_map, List.drop_succ_cons, List.drop_zero]

/-- Every permutation of `0 … n-1` has a rotation that starts at `0`,
whose tail is an arrangement of `1 … n-1`. -/
theorem rotate_to_zero (p : List Nat) (n : Nat) (hn : 1 ≤ n)
    (hp : List.Perm p (List.range n)) :
    ∃ k σ, p.rotate k = 0 :: σ ∧
      List.Perm σ ((List.range n).drop 1) := by
  have h0 : 0 ∈ p := hp.mem_iff.mpr (List.mem_range.mpr (by omega))
  obtain ⟨a, b, rfl⟩ := List.append_of_mem h0
  refine ⟨a.length, b ++ a, ?_, ?_⟩
  · rw [List.rotate_eq_drop_append_take (by simp)]
    rw [List.drop_left, List.take_left]
    rfl
  · have hrot : List.Perm ((a ++ 0 :: b).rotate a.length) (a ++ 0 :: b) :=
      List.rotate_perm _ _
    have heq : (a ++ 0 :: b).rotate a.length = 0 :: (b ++ a) := by
      rw [List.rotate_eq_drop_append_take (by simp)]
      rw [List.drop_left, List.take_left]
      rfl
    rw [heq] at hrot
    have : List.Perm (0 :: (b ++ a)) (0 :: (List.range n).drop 1) := by
      refine hrot.trans ?_
      rw [← range_eq_cons_drop n hn]
      exact hp
    exact this.cons_inv

theorem perm_cons_eraseIdx (l : List Nat) (i : Nat) (hi : i < l.length) :
    List.Perm l (l[i] :: l.eraseIdx i) :=
  (List.perm_cons_erase (List.getElem_mem hi)).trans
    ((List.erase_getElem hi).cons l[i])

/-- Decomposing an arrangement of `rem`: its head sits at some index of
`rem`, and its tail arranges `rem` with that index removed. -/
theorem perm_head_eraseIdx (rem : List Nat) (c : Nat) (σ : List Nat)
    (h : List.Perm (c :: σ) rem) :
    ∃ i, i < rem.length ∧ rem[i]? = some c ∧
      List.Perm σ (rem.eraseIdx i) := by
  have hc : c ∈ rem := h.subset (List.mem_cons_self c σ)
  have hi : rem.indexOf c < rem.length := List.indexOf_lt_length.mpr hc
  refine ⟨rem.indexOf c, hi, ?_, ?_⟩
  · rw [List.getElem?_eq_getElem hi, List.getElem_indexOf hi]
  · have h1 : List.Perm rem (c :: rem.erase c) := List.perm_cons_erase hc
    have h2 : List.Perm σ (rem.erase c) := (h.trans h1).cons_inv
    have h3 : List.Perm (rem.erase c) (rem.eraseIdx (rem.indexOf c)) := by
      have := List.erase_getElem hi
      rwa [List.getElem_indexOf hi] at this
    exact h2.trans h3

/-- Full characterization of `permute`: with the fuel pinned to
`remaining.length` (as at every real call site), the accumulator-threaded
search always produces a result; that result is the incoming best or an
explored completion of `path`, is never worse than the incoming best, and
is never worse than any arrangement of `remaining` appended to `path`. -/
theorem permuteTSP_spec (d : Nat → Nat → Nat) :
    ∀ (fuel : Nat) (rem path : List Nat) (best : Option (Nat × List Nat)),
      fuel = rem.length →
      ∃ rl rt, permuteTSP d fuel path rem best = some (rl, rt) ∧
        (best = some (rl, rt) ∨
          ∃ σ, List.Perm σ rem ∧ rl = cycleLenAt d (path ++ σ) ∧
            rt = (path ++ σ) ++ [(path ++ σ).getD 0 0]) ∧
        (∀ bl bt, best = some (bl, bt) → rl ≤ bl) ∧
        (∀ σ, List.Perm σ rem → rl ≤ cycleLenAt d (path ++ σ)) := by
  intro fuel
  induction fuel with
  | zero =>
    intro rem path best hfuel
    have hrem : rem = [] := by
      cases rem with
      | nil => rfl
      | cons v rem' => simp at hfuel
    subst hrem
    have hσnil : ∀ σ : List Nat, List.Perm σ [] → σ = [] :=
      fun σ h => h.eq_nil
    cases best with
    | none =>
      refine ⟨cycleLenAt d path, path ++ [path.getD 0 0], rfl, ?_, ?_, ?_⟩
      · refine Or.inr ⟨[], List.Perm.refl [], ?_, ?_⟩ <;>
          rw [List.append_nil]
      · intro bl bt h; exact absurd h (by simp)
      · intro σ hσ
        rw [hσnil σ hσ, List.append_nil]
    | some p =>
      obtain ⟨bl, bt⟩ := p
      by_cases hlt : cycleLenAt d path < bl
      · refine ⟨cycleLenAt d path, path ++ [path.getD 0 0], ?_, ?_, ?_, ?_⟩
        · show (if cycleLenAt d path < bl then
            some (cycleLenAt d path, path ++ [path.getD 0 0])
            else some (bl, bt)) = _
          rw [if_pos hlt]
        · refine Or.inr ⟨[], List.Perm.refl [], ?_, ?_⟩ <;>
            rw [List.append_nil]
        · intro bl' bt' h
          injection h with h
          injection h with h1 h2
          omega
        · intro σ hσ
          rw [hσnil σ hσ, List.append_nil]
      · refine ⟨bl, bt, ?_, Or.inl rfl, ?_, ?_⟩
        · show (if cycleLenAt d path < bl then
            some (cycleLenAt d path, path ++ [path.getD 0 0])
            else some (bl, bt)) = _
          rw [if_neg hlt]
        · intro bl' bt' h
          injection h with h
          injection h with h1 h2
          omega
        · intro σ hσ
          rw [hσnil σ hσ, List.append_nil]
          omega
  | succ fuel ih =>
    intro rem path best hfuel
    cases rem with
    | nil => simp at hfuel
    | cons v rem' =>
    have hlr : (v :: rem').length = fuel + 1 := hfuel.symm
    have hchild : ∀ i, i < (v :: rem').length →
        fuel = ((v :: rem').eraseIdx i).length := by
      intro i hi
      rw [List.length_eraseIdx, if_pos hi, hlr]
      omega
    have hfold : ∀ idxs : List Nat, (∀ i ∈ idxs, i < (v :: rem').length) →
        ∀ b0 : Option (Nat × List Nat),
        (idxs = [] ∧
          idxs.foldl
            (fun b i =>
              permuteTSP d fuel (path ++ [(v :: rem').getD i 0])
                ((v :: rem').eraseIdx i) b)
            b0 = b0) ∨
        ∃ rl rt,
          idxs.foldl
            (fun b i =>
              permuteTSP d fuel (path ++ [(v :: rem').getD i 0])
                ((v :: rem').eraseIdx i) b)
            b0 = some (rl, rt) ∧
          (b0 = some (rl, rt) ∨
            ∃ i ∈ idxs, ∃ σ', List.Perm σ' ((v :: rem').eraseIdx i) ∧
              rl = cycleLenAt d ((path ++ [(v :: rem').getD i 0]) ++ σ') ∧
              rt = ((path ++ [(v :: rem').getD i 0]) ++ σ') ++
                [((path ++ [(v :: rem').getD i 0]) ++ σ').getD 0 0]) ∧
          (∀ bl bt, b0 = some (bl, bt) → rl ≤ bl) ∧
          (∀ i ∈ idxs, ∀ σ', List.Perm σ' ((v :: rem').eraseIdx i) →
            rl ≤ cycleLenAt d ((path ++ [(v :: rem').getD i 0]) ++ σ')) := by
      intro idxs
      induction idxs with
      | nil => intro _ b0; exact Or.inl ⟨rfl, rfl⟩
      | cons i idxs' ihx =>
        intro hmem b0
        have hi : i < (v :: rem').length := hmem i (List.mem_cons_self i idxs')
        have hmem' : ∀ j ∈ idxs', j < (v :: rem').length :=
          fun j hj => hmem j (List.mem_cons_of_mem i hj)
        obtain ⟨cl, ct, hceq, hcsound, hcb0, hccand⟩ :=
          ih ((v :: rem').eraseIdx i) (path ++ [(v :: rem').getD i 0]) b0
            (hchild i hi)
        rw [List.foldl_cons]
        rcases ihx hmem' (some (cl, ct)) with ⟨hnil, heq⟩ | hres
        · subst hnil
          rw [List.foldl_nil] at heq ⊢
          refine Or.inr ⟨cl, ct, by rw [hceq], ?_, ?_, ?_⟩
          · rcases hcsound with h | ⟨σ', hσ', h1, h2⟩
            · exact Or.inl h
            · exact Or.inr ⟨i, List.mem_cons_self i [], σ', hσ', h1, h2⟩
          · exact hcb0
          · intro i' hi' σ' hσ'
            rcases List.mem_cons.mp hi' with rfl | h
            · exact hccand σ' hσ'
            · exact absurd h (List.not_mem_nil i')
        · obtain ⟨rl, rt, heq, hsound, hbound, hcands⟩ := hres
          refine Or.inr ⟨rl, rt, ?_, ?_, ?_, ?_⟩
          · rw [hceq]; exact heq
          · rcases hsound with h | ⟨i', hi', hrest⟩
            · injection h with h
              injection h with h1 h2
              subst h1; subst h2
              rcases hcsound with h | ⟨σ', hσ', h1, h2⟩
              · exact Or.inl h
              · exact Or.inr ⟨i, List.mem_cons_self i idxs', σ', hσ', h1, h2⟩
            · exact Or.inr ⟨i', List.mem_cons_of_mem i hi', hrest⟩
          · intro bl bt hb0
            have h1 := hcb0 bl bt hb0
            have h2 := hbound cl ct rfl
            omega
          · intro i' hi' σ' hσ'
            rcases List.mem_cons.mp hi' with rfl | h
            · have h1 := hccand σ' hσ'
              have h2 := hbound cl ct rfl
              omega
            · exact hcands i' h σ' hσ'
    have hreseq : permuteTSP d (fuel + 1) path (v :: rem') best =
        (List.range (v :: rem').length).foldl
          (fun b i =>
            permuteTSP d fuel (path ++ [(v :: rem').getD i 0])
              ((v :: rem').eraseIdx i) b)
          best := rfl
    rcases hfold (List.range (v :: rem').length)
      (fun i hi => List.mem_range.mp hi) best with ⟨hnil, -⟩ | hres
    · exact absurd hnil (by simp)
    · obtain ⟨rl, rt, heq, hsound, hbound, hcands⟩ := hres
      refine ⟨rl, rt, by rw [hreseq, heq], ?_, hbound, ?_⟩
      · rcases hsound with h | ⟨i, hi, σ', hσ', h1, h2⟩
        · exact Or.inl h
        · have hilt : i < (v :: rem').length := List.mem_range.mp hi
          refine Or.inr ⟨(v :: rem').getD i 0 :: σ', ?_, ?_, ?_⟩
          · have hp1 : List.Perm ((v :: rem').getD i 0 :: σ')
                ((v :: rem')[i] :: (v :: rem').eraseIdx i) := by
              rw [getD_eq_getElem_of_lt _ i hilt]
              exact hσ'.cons _
            exact hp1.trans (perm_cons_eraseIdx (v :: rem') i hilt).symm
          · rw [h1]
            congr 1
            simp
          · rw [h2]
            have hx : (path ++ [(v :: rem').getD i 0]) ++ σ' =
                path ++ (v :: rem').getD i 0 :: σ' := by simp
            rw [hx]
      · intro σ hσ
        cases σ with
        | nil =>
          have := hσ.length_eq
          simp at this
        | cons c σ' =>
          obtain ⟨i, hilt, hgi, hσ'⟩ := perm_head_eraseIdx _ c σ' hσ
          have hgd : (v :: rem').getD i 0 = c := by
            rw [List.getD_eq_getElem?_getD, hgi, Option.getD_some]
          have := hcands i (List.mem_range.mpr hilt) σ' hσ'
          rw [hgd] at this
          have hx : (path ++ [c]) ++ σ' = path ++ c :: σ' := by simp
          rw [hx] at this
          exact this

theorem getOptimalTour_spec (d : Nat → Nat → Nat) (n : Nat) (hn : 1 ≤ n) :
    ∃ bl bt, getOptimalTour d n = some (bl, bt) ∧
      (∃ p, List.Perm p (List.range n) ∧ cycleLenAt d p = bl ∧
        bt = p ++ [p.getD 0 0]) ∧
      ∀ p, List.Perm p (List.range n) → bl ≤ cycleLenAt d p := by
  obtain ⟨bl, bt, heq, hsound, -, hcands⟩ :=
    permuteTSP_spec d ((List.range n).drop 1).length ((List.range n).drop 1)
      [0] none rfl
  refine ⟨bl, bt, heq, ?_, ?_⟩
  · rcases hsound with h | ⟨σ, hσ, h1, h2⟩
    · exact absurd h (by simp)
    · refine ⟨0 :: σ, ?_, ?_, ?_⟩
      · rw [range_eq_cons_drop n hn]
        exact hσ.cons 0
      · rw [h1]
        rfl
      · rw [h2]
        rfl
  · intro p hp
    obtain ⟨k, σ, hrot, hσ⟩ := rotate_to_zero p n hn hp
    have h1 := hcands σ hσ
    have h2 : ([0] ++ σ : List Nat) = 0 :: σ := rfl
    rw [h2, ← hrot, cycleLenAt_rotate] at h1
    exact h1

theorem mem_of_bound_nodup (p : List Nat) (n : Nat) (hnd : p.Nodup)
    (hlen : p.length = n) (hlt : ∀ x ∈ p, x < n) :
    ∀ id, id < n → id ∈ p := by
  intro id hid
  have hperm := perm_range_of_nodup p n hlen hnd hlt
  exact hperm.mem_iff.mpr (List.mem_range.mpr hid)

theorem tspClick_inv (n : Nat) :
    ∀ (clicks : List Nat), (∀ c ∈ clicks, c < n) →
      (∀ x ∈ clicks.foldl (tspClick n) [], x < n) ∧
        ((clicks.foldl (tspClick n) []).length ≤ n →
          (clicks.foldl (tspClick n) []).Nodup) ∧
        (n < (clicks.foldl (tspClick n) []).length →
          ∃ p, clicks.foldl (tspClick n) [] = p ++ [p.getD 0 0] ∧
            p.Nodup ∧ p.length = n ∧ ∀ x ∈ p, x < n) := by
  intro clicks hc
  refine foldl_preserve
    (fun sel : List Nat =>
      (∀ x ∈ sel, x < n) ∧ (sel.length ≤ n → sel.Nodup) ∧
        (n < sel.length → ∃ p, sel = p ++ [p.getD 0 0] ∧ p.Nodup ∧
          p.length = n ∧ ∀ x ∈ p, x < n))
    (tspClick n) clicks [] ⟨by simp, fun _ => List.nodup_nil, by simp⟩ ?_
  intro prev id hid hprev
  obtain ⟨hbound, hnodup, hover⟩ := hprev
  have hidn : id < n := hc id hid
  unfold tspClick
  by_cases hemp : prev.isEmpty = true
  · rw [if_pos hemp]
    refine ⟨by intro x hx; simp at hx; omega, fun _ => List.nodup_singleton id,
      ?_⟩
    intro hlt
    simp only [List.length_singleton] at hlt
    omega
  · rw [if_neg hemp]
    by_cases hclose : (prev.length == n && id == prev.getD 0 0) = true
    · rw [if_pos hclose]
      obtain ⟨hl, hh⟩ := (Bool.and_eq_true _ _).mp hclose
      have hlen : prev.length = n := by simpa using hl
      have hhead : id = prev.getD 0 0 := by simpa using hh
      have hpn : prev.Nodup := hnodup (by omega)
      refine ⟨?_, ?_, ?_⟩
      · intro x hx
        rcases List.mem_append.mp hx with h | h
        · exact hbound x h
        · simp at h
          omega
      · intro hle
        simp only [List.length_append, List.length_singleton] at hle
        omega
      · intro _
        exact ⟨prev, by rw [hhead], hpn, hlen, hbound⟩
    · rw [if_neg hclose]
      by_cases hdup : prev.contains id = true
      · rw [if_pos hdup]
        exact ⟨hbound, hnodup, hover⟩
      · rw [if_neg hdup]
        have hnotmem : id ∉ prev := by simpa using hdup
        have hlt : prev.length < n := by
          rcases Nat.lt_trichotomy prev.length n with h | h | h
          · exact h
          · exfalso
            have hpn : prev.Nodup := hnodup (by omega)
            exact hnotmem (mem_of_bound_nodup prev n hpn h hbound id hidn)
          · exfalso
            obtain ⟨p, hsel, hpnd, hplen, hpb⟩ := hover h
            have : id ∈ p := mem_of_bound_nodup p n hpnd hplen hpb id hidn
            exact hnotmem (by rw [hsel]; exact List.mem_append.mpr (Or.inl this))
        refine ⟨?_, ?_, ?_⟩
        · intro x hx
          rcases List.mem_append.mp hx with h | h
          · exact hbound x h
          · simp at h
            omega
        · intro _
          have hpn : prev.Nodup := hnodup (by omega)
          have hperm : List.Perm (prev ++ [id]) (id :: prev) :=
            List.perm_append_singleton id prev
          rw [hperm.nodup_iff]
          exact List.nodup_cons.mpr ⟨hnotmem, hpn⟩
        · intro hgt
          simp only [List.length_append, List.length_singleton] at hgt
          omega

theorem tspWin_iff (d : Nat → Nat → Nat) (hd0 : ∀ x, d x x = 0)
    (n bl : Nat) (hn : 1 ≤ n) (sel : List Nat)
    (hinv : (∀ x ∈ sel, x < n) ∧ (sel.length ≤ n → sel.Nodup) ∧
      (n < sel.length → ∃ p, sel = p ++ [p.getD 0 0] ∧ p.Nodup ∧
        p.length = n ∧ ∀ x ∈ p, x < n)) :
    tspWinCheck d n bl sel = true ↔
      ∃ p, List.Perm p (List.range n) ∧ sel = p ++ [p.getD 0 0] ∧
        cycleLenAt d p = bl := by
  obtain ⟨hbound, _, hover⟩ := hinv
  constructor
  · intro hwin
    obtain ⟨hl, hv⟩ := (Bool.and_eq_true _ _).mp hwin
    have hlen : sel.length = n + 1 := by simpa using hl
    have hval : cycleLenAt d sel = bl := by simpa using hv
    obtain ⟨p, hsel, hpnd, hplen, hpb⟩ := hover (by omega)
    refine ⟨p, perm_range_of_nodup p n hplen hpnd hpb, hsel, ?_⟩
    rw [hsel] at hval
    rw [← hval, cycleLenAt_closed d hd0 p (by omega)]
  · rintro ⟨p, hperm, hsel, hval⟩
    have hplen : p.length = n := by
      rw [hperm.length_eq, List.length_range]
    unfold tspWinCheck
    rw [hsel]
    have h1 : ((p ++ [p.getD 0 0]).length == n + 1) = true := by
      simp [hplen]
    have h2 : (cycleLenAt d (p ++ [p.getD 0 0]) == bl) = true := by
      rw [cycleLenAt_closed d hd0 p (by omega), hval]
      simp
    rw [h1, h2]
    rfl

/-- C3: `getOptimalTour` returns the minimum cyclic length over all
closed tours visiting every node exactly once (the fixed-start permutation
enumeration covers every tour up to rotation), and — for every selection
reachable through `handleNodeClick` — the win check fires exactly on a
sequence of `n + 1` node ids that ends at its starting node, visits every
node once, and whose total cyclic weight equals that optimum; a valid but
non-optimal tour is rejected. The distance oracle `d` abstracts the
rounded Euclidean id-to-id distance; the only property used is
`d x x = 0`. -/
theorem tsp_optimal_and_win_check (d : Nat → Nat → Nat) (n : Nat)
    (hd0 : ∀ x, d x x = 0) (hn : 1 ≤ n) :
    ∃ bl bt, getOptimalTour d n = some (bl, bt) ∧
      (∃ p, List.Perm p (List.range n) ∧ cycleLenAt d p = bl ∧
        bt = p ++ [p.getD 0 0]) ∧
      (∀ p, List.Perm p (List.range n) → bl ≤ cycleLenAt d p) ∧
      ∀ clicks : List Nat, (∀ c ∈ clicks, c < n) →
        (tspWinCheck d n bl (clicks.foldl (tspClick n) []) = true ↔
          ∃ p, List.Perm p (List.range n) ∧
            clicks.foldl (tspClick n) [] = p ++ [p.getD 0 0] ∧
            cycleLenAt d p = bl) := by
  obtain ⟨bl, bt, heq, hex, hmin⟩ := getOptimalTour_spec d n hn
  refine ⟨bl, bt, heq, hex, hmin, ?_⟩
  intro clicks hc
  exact tspWin_iff d hd0 n bl hn (clicks.foldl (tspClick n) [])
    (tspClick_inv n clicks hc)

/-- Witness for C3 on four nodes with the unit-square distance pattern
(adjacent ids at distance 1, opposite ids at distance 2). -/
theorem tsp_optimal_and_win_check_concrete :
    ∃ bl bt, getOptimalTour
        (fun a b => if a = b then 0 else if (a + b) % 2 = 1 then 1 else 2)
        4 = some (bl, bt) ∧
      (∃ p, List.Perm p (List.range 4) ∧
        cycleLenAt
          (fun a b => if a = b then 0 else if (a + b) % 2 = 1 then 1 else 2)
          p = bl ∧ bt = p ++ [p.getD 0 0]) ∧
      (∀ p, List.Perm p (List.range 4) →
        bl ≤ cycleLenAt
          (fun a b => if a = b then 0 else if (a + b) % 2 = 1 then 1 else 2)
          p) ∧
      ∀ clicks : List Nat, (∀ c ∈ clicks, c < 4) →
        (tspWinCheck
            (fun a b => if a = b then 0 else if (a + b) % 2 = 1 then 1 else 2)
            4 bl (clicks.foldl (tspClick 4) []) = true ↔
          ∃ p, List.Perm p (List.range 4) ∧
            clicks.foldl (tspClick 4) [] = p ++ [p.getD 0 0] ∧
            cycleLenAt
              (fun a b => if a = b then 0 else if (a + b) % 2 = 1 then 1 else 2)
              p = bl) :=
  tsp_optimal_and_win_check
    (fun a b => if a = b then 0 else if (a + b) % 2 = 1 then 1 else 2) 4
    (by intro x; simp) (by omega)

end NPHard
